import Mathlib

/-!
# The SiebelMessage decoder of `smp.c`

A shallow embedding of `smp.c` and theorems about it.

Conventions of the embedding.

* Bytes are natural numbers `0 .. 255`; the value `fgetc` returns is an `Int`,
  with `EOF = -1`.  A conversion to `char` is `toChar`, reduction modulo `2^8`.
* `int` is 32 bits wide and `size_t` 64 bits wide (LP64).  Signed overflow, an
  `atoi` result out of range, a read of a never assigned variable, `atoi(NULL)`
  and an access outside an allocated block are undefined behaviour in C: the
  embedding reports them as a `Fault` and says nothing more about such a run.
* A heap block is a list of cells, `none` for a byte that was never written.
  `malloc` and `realloc` are taken to succeed.
* `stdout` is the list of the `printf` calls made, in order; `stdout` turns it
  into bytes.  `stderr` is not recorded: the exit status tells the two ways `main`
  ends apart (the argument and `fopen` checks precede the decoder and are not
  embedded; the input is the content of the opened stream).
* Loops are given fuel. The byte loop of the group loop gets one more than the
  number of bytes left to read, the loop `while (extends > 0)` the value of
  `extends`.
-/

namespace Smp

set_option maxRecDepth 100000

/-- Ways a run leaves defined behaviour, and `fuel` for a loop of the embedding
that was given too little fuel. -/
inductive Fault where
  | nullPointer
  | outOfBounds
  | indeterminate
  | overflow
  | fuel
  deriving DecidableEq, Repr

deriving instance DecidableEq for Except

/-! ## Machine integers -/

def INT_MAX : Int := 2147483647

def INT_MIN : Int := -2147483648

def SIZE_MAX : Nat := 18446744073709551615

/-- The result of a signed `int` computation: undefined when out of range. -/
def int (x : Int) : Except Fault Int :=
  if INT_MIN ≤ x ∧ x ≤ INT_MAX then .ok x else .error .overflow

/-- Conversion of an `int` to `size_t`, as in `str->size >= len`. -/
def toSizeT (x : Int) : Nat := (x % (SIZE_MAX + 1 : Nat)).toNat

/-- Conversion of an `int` to `char`, kept as the byte `0 .. 255`. -/
def toChar (c : Int) : Nat := (c % 256).toNat

/-- Read of a local variable that may never have been assigned. -/
def rd (x : Option Int) : Except Fault Int :=
  match x with
  | some a => .ok a
  | none => .error .indeterminate

/-! ## Heap blocks and C strings -/

abbrev Block := List (Option Nat)

/-- `realloc(p, n)`: the old content up to `n` bytes, the rest never written. -/
def realloc (p : Option Block) (n : Nat) : Block :=
  match p with
  | none => List.replicate n none
  | some m => m.take n ++ List.replicate (n - m.length) none

/-- `p[i] = x`. -/
def store (p : Option Block) (i : Nat) (x : Nat) : Except Fault Block :=
  match p with
  | none => .error .nullPointer
  | some m => if i < m.length then .ok (m.set i (some x)) else .error .outOfBounds

/-- The bytes of a block before its first NUL. -/
def cstrBlock : Block → Except Fault (List Nat)
  | [] => .error .outOfBounds
  | none :: _ => .error .indeterminate
  | some b :: t => if b = 0 then .ok [] else (cstrBlock t).map (b :: ·)

/-- The C string at `p`, as `printf("%s")`, `strlen` and `atoi` read it. -/
def cstr (p : Option Block) : Except Fault (List Nat) :=
  match p with
  | none => .error .nullPointer
  | some m => cstrBlock m

def strlen (p : Option Block) : Except Fault Nat :=
  (cstr p).map List.length

/-! ## `cstring_t` -/

def REALLOC_ADD : Nat := 10

/-- The data fields of `struct _cstring_t`; its function pointers always hold
the functions below and are left out. -/
structure cstring_t where
  text : Option Block
  size : Nat
  alloc : Nat
  deriving DecidableEq, Repr

def cstring_init : cstring_t :=
  { text := none, size := 0, alloc := 0 }

def cstring_expand (self : cstring_t) (x : Nat) : Except Fault cstring_t := do
  let self :=
    if self.size + 1 + 1 > self.alloc then
      { self with
        alloc := self.alloc + REALLOC_ADD * 1
        text := some (realloc self.text (self.alloc + REALLOC_ADD * 1)) }
    else self
  let m ← store self.text self.size x
  let m ← store (some m) (self.size + 1) 0
  let n ← strlen (some m)
  pure { self with text := some m, size := n }

def cstring_reset (_self : cstring_t) : cstring_t :=
  { text := none, size := 0, alloc := 0 }

/-! ## UTF-8 helpers -/

def is_utf8 (ch : Nat) : Bool :=
  (ch &&& 0x80) != 0x00

/-- The loop of `length_utf8`; `ch <<= 1` keeps the low eight bits. -/
def length_utf8_loop : Nat → Nat → Int → Except Fault Int
  | 0, _, _ => .error .fuel
  | fuel + 1, ch, i =>
    if is_utf8 ch then length_utf8_loop fuel ((ch <<< 1) % 256) (i + 1) else .ok i

def length_utf8 (ch : Nat) : Except Fault Int :=
  length_utf8_loop 9 ch 0

/-! ## `atoi`, `fgetc`, `printf` -/

def isspace (b : Nat) : Bool :=
  b == 32 || (9 ≤ b && b ≤ 13)

def isdigit (b : Nat) : Bool :=
  48 ≤ b && b ≤ 57

/-- The value of the leading decimal digits of a byte string. -/
def digitsValue : Nat → List Nat → Nat
  | acc, [] => acc
  | acc, b :: t => if isdigit b then digitsValue (acc * 10 + (b - 48)) t else acc

/-- The number `atoi` reads from a string: blanks, an optional sign, digits. -/
def parseInt (s : List Nat) : Int :=
  match s.dropWhile isspace with
  | 45 :: t => - (digitsValue 0 t : Int)
  | 43 :: t => (digitsValue 0 t : Int)
  | t => (digitsValue 0 t : Int)

/-- The function `atoi`: undefined on `NULL` and when the number is no `int`. The
whole string is read here, `atoi` itself stops at the first byte that is no digit. -/
def atoi (p : Option Block) : Except Fault Int := do
  let s ← cstr p
  int (parseInt s)

def EOF : Int := -1

def fgetc (input : List Nat) : Int × List Nat :=
  match input with
  | [] => (EOF, [])
  | b :: rest => ((b : Int), rest)

/-- One call of `printf` in `main`. -/
inductive Printf where
  /-- `printf((props % 2 == 0) ? "%s\n" : "%s: ", text)` -/
  | field (props : Int) (text : List Nat)
  /-- `printf("\n")` -/
  | newline
  deriving DecidableEq, Repr

def Printf.render : Printf → List Nat
  | .field props text => if props % 2 == 0 then text ++ [10] else text ++ [58, 32]
  | .newline => [10]

def stdout (calls : List Printf) : List Nat :=
  calls.flatMap Printf.render

/-! ## `main` -/

/-- The local variables of `main` that live across its loops, with the unread
rest of the input stream and the `printf` calls made so far. -/
structure Vars where
  input : List Nat
  out : List Printf
  str : cstring_t
  slen : cstring_t
  len : Int
  props : Option Int
  extends_ : Option Int
  deriving DecidableEq, Repr

/-- The header loop (`// flags`), from the value of `i` on. -/
def flags_loop : List Nat → Int → Vars → Except Fault (Int × Vars)
  | [], i, v => .ok (i, { v with input := [] })
  | b :: rest, i, v => do
    let (i, v) ←
      if (b : Int) == 42 then do
        let i := i + 1
        let props ← if i == 3 then (do let a ← atoi v.str.text; let p ← int (a * 2); pure (some p))
          else pure v.props
        let ext ← if i == 4 then (do let a ← atoi v.str.text; let e ← int (a + 1); pure (some e))
          else pure v.extends_
        pure (i, { v with props := props, extends_ := ext, str := cstring_reset v.str })
      else do
        let str ← cstring_expand v.str (toChar b)
        pure (i, { v with str := str })
    if i == 6 then .ok (i, { v with input := rest }) else flags_loop rest i v

/-- The statement `printf((props % 2 == 0) ? "%s\n" : "%s: ", str->text);`. -/
def print_field (v : Vars) : Except Fault Vars := do
  let props ← rd v.props
  let text ← cstr v.str.text
  pure { v with out := v.out ++ [Printf.field props text] }

/-- What is printed at a significant delimiter (`// new property`). -/
def print_property (v : Vars) : Except Fault Vars :=
  if v.str.size > 0 then print_field v
  else pure { v with out := v.out ++ [Printf.newline] }

/-- What is printed after the byte loop (`// print last fields content after EOF
was reached`). -/
def print_last (v : Vars) : Except Fault Vars :=
  if v.str.size > 0 then print_field v else pure v

/-- The loop `do c = fgetc(input); while (c != EOF && c != '*');`. -/
def skip_loop : List Nat → List Nat
  | [] => []
  | b :: rest => if (b : Int) != EOF && (b : Int) != 42 then skip_loop rest else rest

/-- The loop `for(i = 1; i <= length_utf8(c); i++)`, from the values of `i` and `c` on. -/
def utf8_loop : Nat → Int → Int → Vars → Except Fault Vars
  | 0, _, _, _ => .error .fuel
  | fuel + 1, i, c, v => do
    let n ← length_utf8 (toChar c)
    if i ≤ n then do
      let (c, rest) := fgetc v.input
      let str ← cstring_expand v.str (toChar c)
      let len ← int (v.len + 1)
      utf8_loop fuel (i + 1) c { v with input := rest, str := str, len := len }
    else pure v

/-- The body of the loop `while ((c = fgetc(input)) != EOF)` of the group loop,
for the byte `c` just read; the flag tells whether it left the loop by `break`. -/
def props_body (v : Vars) (c : Int) : Except Fault (Vars × Bool) :=
  if c == 42 && decide (v.str.size ≥ toSizeT v.len) then do
    let v ← print_property v
    let len ← atoi v.slen.text
    let v := { v with len := len, str := cstring_reset v.str, slen := cstring_reset v.slen }
    let props ← rd v.props
    if props == 0 then do
      let props ← int ((len + 1) * 2)
      pure ({ v with props := some props, input := skip_loop v.input }, true)
    else do
      let props ← int (props - 1)
      pure ({ v with props := some props }, false)
  else if v.str.size ≥ toSizeT v.len then do
    let slen ← cstring_expand v.slen (toChar c)
    pure ({ v with slen := slen }, false)
  else if is_utf8 (toChar c) then do
    let str ← cstring_expand v.str (toChar c)
    let v ← utf8_loop 9 1 c { v with str := str }
    pure (v, false)
  else do
    let str ← cstring_expand v.str (toChar c)
    pure ({ v with str := str }, false)

/-- The loop `while ((c = fgetc(input)) != EOF)` of the group loop. -/
def props_loop : Nat → Vars → Except Fault Vars
  | 0, _ => .error .fuel
  | fuel + 1, v =>
    match fgetc v.input with
    | (c, rest) =>
      if c != EOF then do
        let (v, brk) ← props_body { v with input := rest } c
        if brk then pure v else props_loop fuel v
      else pure { v with input := rest }

/-- One pass of the loop `while (extends > 0)`, after its test. -/
def extends_body (v : Vars) : Except Fault Vars := do
  let v := { v with len := 0 }
  let v ← props_loop (v.input.length + 1) v
  let v ← print_last v
  let e ← rd v.extends_
  let e ← int (e - 1)
  pure { v with extends_ := some e }

/-- The loop `while (extends > 0)`. -/
def extends_loop : Nat → Vars → Except Fault Vars
  | 0, v => do
    let e ← rd v.extends_
    if e > 0 then .error .fuel else pure v
  | fuel + 1, v => do
    let e ← rd v.extends_
    if e > 0 then do
      let v ← extends_body v
      extends_loop fuel v
    else pure v

/-- How `main` ends: its exit status and what it wrote to `stdout`. -/
structure Exit where
  status : Nat
  out : List Printf
  deriving DecidableEq, Repr

/-- The variables as the header loop finds them: both strings fresh from
`cstring_init`, `props` and `extends` not yet assigned. -/
def Vars.init (input : List Nat) : Vars :=
  { input := input, out := [], str := cstring_init, slen := cstring_init,
    len := 0, props := none, extends_ := none }

/-- The function `main` from `c = fgetc(input)` on. -/
def main (input : List Nat) : Except Fault Exit :=
  match fgetc input with
  | (c, rest) =>
    if c == 64 then do
      let (_, v) ← flags_loop rest 0 (Vars.init rest)
      let v ← extends_loop (v.extends_.getD 0).toNat v
      pure { status := 0, out := v.out }
    else .ok { status := 1, out := [] }

/-- The bytes of an ASCII string. -/
def bytes (s : String) : List Nat :=
  s.toList.map Char.toNat

/-! ## Buffers, messages and outputs the theorems speak about -/

/-- The string buffer `s` is in the state its functions leave it in, holding the
bytes `c`: `size` is their number and `text` is either `NULL` (nothing allocated,
nothing held) or a block of `alloc` bytes with the C string `c`. -/
def cstring_t.Holds (s : cstring_t) (c : List Nat) : Prop :=
  s.size = c.length ∧
    match s.text with
    | none => s.alloc = 0 ∧ c = []
    | some m => m.length = s.alloc ∧ cstrBlock m = .ok c

instance (s : cstring_t) (c : List Nat) : Decidable (s.Holds c) := by
  unfold cstring_t.Holds
  cases s.text <;> infer_instance

/-- The digits of `n` put before `acc`, most significant first. -/
def decAux : Nat → Nat → List Nat → List Nat
  | 0, _, acc => acc
  | fuel + 1, n, acc =>
    if n < 10 then (48 + n) :: acc else decAux fuel (n / 10) ((48 + n % 10) :: acc)

/-- The decimal numeral of `n`, as bytes. -/
def dec (n : Nat) : List Nat :=
  decAux (n + 1) n []

/-- A field as it stands in a message: its length, a delimiter, its bytes. -/
def encField (bs : List Nat) : List Nat :=
  dec bs.length ++ 42 :: bs

/-- The body of a group: every name and value as a field, in order. -/
def encPairs : List (List Nat × List Nat) → List Nat
  | [] => []
  | (k, v) :: ps => encField k ++ (encField v ++ encPairs ps)

/-- The message with one group of the given pairs and no child group. -/
def message (ps : List (List Nat × List Nat)) : List Nat :=
  bytes "@0*0*" ++ (dec ps.length ++ (bytes "*0*0*0*" ++ encPairs ps))

/-- The number a string of decimal digits denotes. -/
def value (t : List Nat) : Nat :=
  Nat.ofDigits 10 (t.reverse.map (· - 48))

/-- The call made for the field `cs` at a significant delimiter. -/
def delimiterCall (p : Int) (cs : List Nat) : Printf :=
  if cs = [] then Printf.newline else Printf.field p cs

/-- The calls made while the fields of the pairs `ps` are read, `cs` being the
field read before them; the last value is left in `str`. -/
def groupCalls : List Nat → List (List Nat × List Nat) → List Printf
  | _, [] => []
  | cs, (k, v) :: ps =>
    delimiterCall (2 * (ps.length + 1 : Nat)) cs
      :: delimiterCall (2 * (ps.length : Nat) + 1) k :: groupCalls v ps

/-- The field read last: the value of the last pair. -/
def lastField : List Nat → List (List Nat × List Nat) → List Nat
  | cs, [] => cs
  | _, (_, v) :: ps => lastField v ps

/-- The call made at the end of the stream for the field `cs`. -/
def eofCalls (p : Int) (cs : List Nat) : List Printf :=
  if cs = [] then [] else [Printf.field p cs]

/-- A byte string a field may hold in the messages considered: bytes `0x01 .. 0x7F`,
fewer than `2^31` of them. -/
def Plain (bs : List Nat) : Prop :=
  (∀ b ∈ bs, 1 ≤ b ∧ b ≤ 127) ∧ (bs.length : Int) ≤ INT_MAX

instance (bs : List Nat) : Decidable (Plain bs) := by
  unfold Plain
  infer_instance

/-- What `str` keeps of a header token: its bytes as `char`, the NUL bytes dropped. -/
def kept (t : List Nat) : List Nat :=
  (t.map (fun (b : Nat) => toChar (b : Int))).filter (· ≠ 0)

/-- A header of six tokens, as a byte string. -/
def header (t1 t2 t3 t4 t5 t6 : List Nat) : List Nat :=
  t1 ++ 42 :: (t2 ++ 42 :: (t3 ++ 42 :: (t4 ++ 42 :: (t5 ++ 42 :: (t6 ++ [42])))))

/-- A non-empty string of decimal digits. -/
def Numeral (t : List Nat) : Prop :=
  t ≠ [] ∧ ∀ d ∈ t, 48 ≤ d ∧ d ≤ 57

/-- The bytes `k: v` and a newline for every pair but the last, `k: ` for the last
and, when its value is not empty, that value and a newline. -/
def expected : List (List Nat × List Nat) → List Nat
  | [] => []
  | (k, v) :: ps =>
    k ++ ([58, 32] ++
      (if ps = [] then (if v = [] then [] else v ++ [10]) else v ++ ([10] ++ expected ps)))

/-- The lines of `out` after the bytes `cur` (kept in reverse) of the line begun. -/
def linesFrom : List Nat → List Nat → List (List Nat)
  | [], cur => if cur = [] then [] else [cur.reverse]
  | b :: t, cur => if b = 10 then cur.reverse :: linesFrom t [] else linesFrom t (b :: cur)

/-- The lines of an output: a newline byte ends a line, and so does the end of the
output after a byte that is no newline. -/
def lines (out : List Nat) : List (List Nat) :=
  linesFrom out []

/-- The calls that print the pairs `ps`: every name with an odd `props`, every value
with an even one. -/
def pairCalls : List (List Nat × List Nat) → List Printf
  | [] => []
  | (k, v) :: ps =>
    Printf.field (2 * (ps.length : Int) + 1) k :: Printf.field (2 * (ps.length : Int)) v
      :: pairCalls ps

/-- The sample message of the header comment of `smp.c`. -/
def sample : List Nat :=
  bytes "@0*0*34*0*0*0*8*Comments0*19*RequestLanguageCode3*DEU15*RequestSendFlag1*N17*RequestLocaleCode0*12*PerfTestMode0*14*RecipientGroup0*13*CommRequestId0*19*CommProfileOverride20*SiebelReplyContainer12*SourceBusObj6*Action18*KeepSuccessMessage4*true17*StateFileOverride0*19*CommRequestParentId0*11*ProcessMode5*Local20*RequestDefaultMedium0*7*Charset0*11*TestAddress0*12*SourceIdList9*1-4JE0ZIS16*RecipientBusComp6*Action9*WebServer0*8*NumTasks0*11*RequestName0*15*PackageNameList40*eMail Response - Auto Acknowledge (HTML)19*MsgReplyAddressList19*testing@example.com12*TaskRecipMin0*20*ChildRecipSearchSpec0*13*NumRecipients0*10*CreateOnly1*011*MessageType0*15*RequestTimeZone0*13*TaskStartDate0*15*MessageTracking5*false9*LoginName6*SADMIN16*DefinedComponent0*15*RecipSearchSpec0*"

/-- The 34 pairs of names and values of the sample message. -/
def samplePairs : List (List Nat × List Nat) :=
  [(bytes "Comments", bytes ""),
    (bytes "RequestLanguageCode", bytes "DEU"),
    (bytes "RequestSendFlag", bytes "N"),
    (bytes "RequestLocaleCode", bytes ""),
    (bytes "PerfTestMode", bytes ""),
    (bytes "RecipientGroup", bytes ""),
    (bytes "CommRequestId", bytes ""),
    (bytes "CommProfileOverride", bytes "SiebelReplyContainer"),
    (bytes "SourceBusObj", bytes "Action"),
    (bytes "KeepSuccessMessage", bytes "true"),
    (bytes "StateFileOverride", bytes ""),
    (bytes "CommRequestParentId", bytes ""),
    (bytes "ProcessMode", bytes "Local"),
    (bytes "RequestDefaultMedium", bytes ""),
    (bytes "Charset", bytes ""),
    (bytes "TestAddress", bytes ""),
    (bytes "SourceIdList", bytes "1-4JE0ZIS"),
    (bytes "RecipientBusComp", bytes "Action"),
    (bytes "WebServer", bytes ""),
    (bytes "NumTasks", bytes ""),
    (bytes "RequestName", bytes ""),
    (bytes "PackageNameList", bytes "eMail Response - Auto Acknowledge (HTML)"),
    (bytes "MsgReplyAddressList", bytes "testing@example.com"),
    (bytes "TaskRecipMin", bytes ""),
    (bytes "ChildRecipSearchSpec", bytes ""),
    (bytes "NumRecipients", bytes ""),
    (bytes "CreateOnly", bytes "0"),
    (bytes "MessageType", bytes ""),
    (bytes "RequestTimeZone", bytes ""),
    (bytes "TaskStartDate", bytes ""),
    (bytes "MessageTracking", bytes "false"),
    (bytes "LoginName", bytes "SADMIN"),
    (bytes "DefinedComponent", bytes ""),
    (bytes "RecipSearchSpec", bytes "")]

/-- The line `name: value` of a pair. -/
def pairLine (p : List Nat × List Nat) : List Nat :=
  p.1 ++ ([58, 32] ++ p.2)

/-! ## `cstring_strip`, `cstring_expand_arr` and the states of the group loop -/

/-- Difference of two `size_t` values, as in `self->size - pos`. -/
def subSizeT (a b : Nat) : Nat :=
  (a + (SIZE_MAX + 1) - b % (SIZE_MAX + 1)) % (SIZE_MAX + 1)

/-- The statement `p[i] = x` for an `int` index. -/
def storeAt (p : Option Block) (i : Int) (x : Nat) : Except Fault Block :=
  if i < 0 then
    match p with
    | none => .error .nullPointer
    | some _ => .error .outOfBounds
  else store p i.toNat x

/-- The call `memmove(&p[dst], &p[src], n)`: both ranges have to lie in the block;
cells never written are moved as they are. -/
def memmove (p : Option Block) (dst src : Int) (n : Nat) : Except Fault Block :=
  match p with
  | none => .error .nullPointer
  | some m =>
    if 0 ≤ dst ∧ 0 ≤ src ∧ dst.toNat + n ≤ m.length ∧ src.toNat + n ≤ m.length then
      .ok (m.take dst.toNat ++ ((m.drop src.toNat).take n ++ m.drop (dst.toNat + n)))
    else .error .outOfBounds

def cstring_strip (self : cstring_t) (pos len : Int) : Except Fault cstring_t := do
  let sum ← int (pos + len)
  if toSizeT sum ≥ self.size then
    if toSizeT pos ≤ self.size then do
      let m ← storeAt self.text pos 0
      pure { self with text := some m, size := toSizeT pos }
    else pure self
  else do
    let m ← memmove self.text pos sum (subSizeT self.size (toSizeT pos))
    pure { self with text := some m, size := subSizeT self.size (toSizeT len) }

/-- The bytes `xs` stored from index `i` on, one after the other. -/
def storeList (p : Option Block) : Nat → List Nat → Except Fault Block
  | _, [] =>
    match p with
    | none => .error .nullPointer
    | some m => .ok m
  | i, x :: xs => do
    let m ← store p i x
    storeList (some m) (i + 1) xs

/-- The call `strcat(p, x)` for the bytes `x` of a C string that lies elsewhere:
they are stored after the string at `p`, a NUL after them. -/
def strcat (p : Option Block) (x : List Nat) : Except Fault Block := do
  let n ← strlen p
  storeList p n (x ++ [0])

/-- The function `cstring_expand_arr`; `x` is given by its bytes before the NUL. -/
def cstring_expand_arr (self : cstring_t) (x : List Nat) : Except Fault cstring_t := do
  let self :=
    if self.size + x.length + 1 > self.alloc then
      { self with
        alloc := (x.length + self.size + 1) * 1
        text := some (realloc self.text ((x.length + self.size + 1) * 1)) }
    else self
  let m ← strcat self.text x
  let n ← strlen (some m)
  let m ← store (some m) (n + 1) 0
  pure { self with text := some m, size := n }

/-- The number of 1-bits of the byte `ch` from the most significant bit down to the
first 0-bit. -/
def leadingOnes (ch : Nat) : Nat :=
  (((List.range 8).map (fun (i : Nat) => ch.testBit (7 - i))).takeWhile (fun b => b)).length

/-- The statements after the byte loop of a pass of `while (extends > 0)`: the last
field is printed and `extends` is decremented. -/
def group_end (v : Vars) : Except Fault Vars := do
  let v ← print_last v
  let e ← rd v.extends_
  let e ← int (e - 1)
  pure { v with extends_ := some e }

/-- The states of the variables at the head of the loop
`while ((c = fgetc(input)) != EOF)` of the group loop, in the run of `main` on
`input`: the first head follows the header loop and the test `extends > 0`; the next
one follows a pass of the body that did not `break`; after a `break` or the end of
the stream the statements behind the loop are run, and the loop is begun again with
`len = 0` when `extends > 0` still holds. -/
inductive Head (input : List Nat) : Vars → Prop
  | first (rest : List Nat) (i : Int) (v : Vars) (e : Int) :
      input = 64 :: rest → flags_loop rest 0 (Vars.init rest) = .ok (i, v) →
      v.extends_ = some e → e > 0 → Head input { v with len := 0 }
  | pass (v : Vars) (b : Nat) (rest : List Nat) (w : Vars) :
      Head input v → v.input = b :: rest →
      props_body { v with input := rest } (b : Int) = .ok (w, false) → Head input w
  | afterBreak (v : Vars) (b : Nat) (rest : List Nat) (w u : Vars) (e : Int) :
      Head input v → v.input = b :: rest →
      props_body { v with input := rest } (b : Int) = .ok (w, true) →
      group_end w = .ok u → u.extends_ = some e → e > 0 → Head input { u with len := 0 }
  | afterEOF (v u : Vars) (e : Int) :
      Head input v → v.input = [] →
      group_end v = .ok u → u.extends_ = some e → e > 0 → Head input { u with len := 0 }

/-- The variables at the second head of the byte loop in the run on
`@0*0*1*0*0*0*1*k`: the byte `1` of the length prefix has been read. -/
def headSample : Vars :=
  ⟨bytes "*k", [], cstring_init,
    ⟨some [some 49, some 0, none, none, none, none, none, none, none, none], 1, 10⟩,
    0, some 2, some 1⟩

/-! ## The string buffer -/

theorem cstrBlock_append (c : List Nat) (r : Block) (hc : 0 ∉ c) :
    cstrBlock (c.map some ++ r) = (cstrBlock r).map (c ++ ·) := by
  induction c with
  | nil => cases h : cstrBlock r <;> simp [Except.map, h]
  | cons b t ih =>
    have hb : b ≠ 0 := fun h => hc (by simp [h])
    have ht : 0 ∉ t := fun h => hc (by simp [h])
    cases h : cstrBlock r <;> simp [cstrBlock, hb, ih ht, h, Except.map]

theorem cstrBlock_ok (m : Block) (c : List Nat) (h : cstrBlock m = .ok c) :
    0 ∉ c ∧ ∃ tail, m = c.map some ++ some 0 :: tail := by
  induction m generalizing c with
  | nil => simp [cstrBlock] at h
  | cons a t ih =>
    cases a with
    | none => simp [cstrBlock] at h
    | some b =>
      by_cases hb : b = 0
      · simp [cstrBlock, hb] at h
        subst h; subst hb
        exact ⟨by simp, t, by simp⟩
      · simp only [cstrBlock, hb, if_false] at h
        cases h2 : cstrBlock t with
        | error e => simp [h2, Except.map] at h
        | ok c2 =>
          simp [h2, Except.map] at h
          subst h
          obtain ⟨h0, tail, rfl⟩ := ih c2 h2
          refine ⟨?_, tail, by simp⟩
          simp only [List.mem_cons, not_or]
          exact ⟨fun h => hb h.symm, h0⟩

theorem set_append_length {α : Type} (pre : List α) (a b : α) (t : List α) :
    (pre ++ a :: t).set pre.length b = pre ++ b :: t := by
  induction pre with
  | nil => rfl
  | cons x xs ih => simp [ih]

theorem cstrBlock_written (c : List Nat) (x : Nat) (tail : Block) (hc : 0 ∉ c) :
    cstrBlock (c.map some ++ some x :: some 0 :: tail) = .ok (if x = 0 then c else c ++ [x]) := by
  rw [cstrBlock_append c _ hc]
  by_cases hx : x = 0 <;> simp [cstrBlock, hx, Except.map]

theorem store_two (c : List Nat) (a0 a1 : Option Nat) (tail : Block) (x : Nat) :
    (do let m ← store (some (c.map some ++ a0 :: a1 :: tail)) c.length x
        store (some m) (c.length + 1) 0)
      = .ok (c.map some ++ some x :: some 0 :: tail) := by
  have h1 : (c.map some ++ a0 :: a1 :: tail).set c.length (some x)
      = c.map some ++ some x :: a1 :: tail := by
    have := set_append_length (c.map some) a0 (some x) (a1 :: tail)
    simp
  have h2 : (c.map some ++ some x :: a1 :: tail).set (c.length + 1) (some 0)
      = c.map some ++ some x :: some 0 :: tail := by
    have := set_append_length (c.map some ++ [some x]) a1 (some 0) tail
    simp
  simp [store, h1, h2, bind, Except.bind]

theorem cstring_expand_block (s : cstring_t) (c : List Nat) (x : Nat) (a0 a1 : Option Nat)
    (tail : Block) (hc : 0 ∉ c) (hsize : s.size = c.length)
    (htext : s.text = some (c.map some ++ a0 :: a1 :: tail))
    (halloc : s.alloc = c.length + 2 + tail.length) :
    ∃ s2, cstring_expand s x = .ok s2 ∧ s2.Holds (if x = 0 then c else c ++ [x])
      ∧ s2.text ≠ none := by
  have hgrow : ¬ (s.size + 1 + 1 > s.alloc) := by omega
  have h2 := store_two c a0 a1 tail x
  simp only [bind, Except.bind] at h2
  cases hm : store (some (c.map some ++ a0 :: a1 :: tail)) c.length x with
  | error e => simp [hm] at h2
  | ok m =>
    simp only [hm] at h2
    refine ⟨{ s with text := some (c.map some ++ some x :: some 0 :: tail),
                     size := (if x = 0 then c else c ++ [x]).length }, ?_, ?_, by simp⟩
    · unfold cstring_expand
      rw [if_neg hgrow]
      simp only [htext, hsize, hm, h2, bind, Except.bind,
        strlen, cstr, cstrBlock_written c x tail hc, Except.map, pure, Except.pure]
    · refine ⟨rfl, ?_⟩
      simp only [cstrBlock_written c x tail hc, halloc]
      refine ⟨?_, trivial⟩
      simp; omega

theorem cstring_expand_grow (s : cstring_t) (x : Nat) (h : s.size + 1 + 1 > s.alloc)
    (h2 : s.size + 1 + 1 ≤ s.alloc + 10) :
    cstring_expand s x = cstring_expand
      { s with alloc := s.alloc + 10, text := some (realloc s.text (s.alloc + 10)) } x := by
  have h3 : ¬ (s.size + 1 + 1 > s.alloc + 10) := by omega
  unfold cstring_expand
  simp only [if_pos h, REALLOC_ADD, Nat.mul_one, h3, if_false]

theorem cstring_expand_holds (s : cstring_t) (c : List Nat) (x : Nat) (h : s.Holds c) :
    ∃ s2, cstring_expand s x = .ok s2 ∧ s2.Holds (if x = 0 then c else c ++ [x])
      ∧ s2.text ≠ none := by
  obtain ⟨text, size, alloc⟩ := s
  obtain ⟨hsize, h⟩ := h
  simp only at hsize h
  subst hsize
  cases text with
  | none =>
    obtain ⟨ha, hc⟩ := h
    subst ha; subst hc
    rw [cstring_expand_grow _ _ (by simp) (by simp)]
    exact cstring_expand_block _ [] x none none (List.replicate 8 none) (by simp) rfl rfl rfl
  | some m =>
    obtain ⟨ha, hc⟩ := h
    obtain ⟨h0, tail, rfl⟩ := cstrBlock_ok m c hc
    cases tail with
    | nil =>
      rw [cstring_expand_grow _ _ (by simp [← ha]) (by simp [← ha])]
      refine cstring_expand_block _ c x (some 0) none (List.replicate 9 none) h0 rfl ?_ ?_
      · simp [realloc, ← ha, List.take_of_length_le, List.replicate_succ]
      · simp [← ha]
    | cons t0 tail =>
      exact cstring_expand_block _ c x (some 0) t0 tail h0 rfl rfl (by simp [← ha]; omega)

/-! ## One pass of the byte loop -/

theorem toChar_byte (b : Nat) (h : b < 256) : toChar (b : Int) = b := by
  unfold toChar
  have : ((b : Int) % 256) = b := Int.emod_eq_of_lt (by omega) (by omega)
  rw [this]; simp

theorem toSizeT_nat (n : Nat) (h : (n : Int) ≤ INT_MAX) : toSizeT (n : Int) = n := by
  unfold toSizeT
  unfold INT_MAX at h
  have : ((n : Int) % ((SIZE_MAX + 1 : Nat) : Int)) = n :=
    Int.emod_eq_of_lt (by omega) (by simp [SIZE_MAX]; omega)
  rw [this]; simp

theorem is_utf8_ascii (b : Nat) (h : b < 128) : is_utf8 b = false := by
  unfold is_utf8
  interval_cases b <;> rfl

theorem props_loop_byte (fuel b : Nat) (rest : List Nat) (out : List Printf)
    (str slen : cstring_t) (len : Int) (props ext : Option Int) :
    props_loop (fuel + 1) ⟨b :: rest, out, str, slen, len, props, ext⟩
      = (do let (v, brk) ← props_body ⟨rest, out, str, slen, len, props, ext⟩ (b : Int)
            if brk then pure v else props_loop fuel v) := by
  have h : ((b : Int) != EOF) = true := by
    simp [EOF]
  simp only [props_loop, fgetc, h, if_true]

theorem props_loop_eof (fuel : Nat) (out : List Printf)
    (str slen : cstring_t) (len : Int) (props ext : Option Int) :
    props_loop (fuel + 1) ⟨[], out, str, slen, len, props, ext⟩
      = .ok ⟨[], out, str, slen, len, props, ext⟩ := by
  simp [props_loop, fgetc, pure, Except.pure]

/-- A byte of a length prefix: past the declared length and not a delimiter. -/
theorem props_body_prefix (b : Nat) (rest : List Nat) (out : List Printf)
    (str slen : cstring_t) (len : Int) (props ext : Option Int) (cl : List Nat)
    (hb : b ≠ 42) (hb2 : b < 256) (hsz : str.size ≥ toSizeT len) (hl : slen.Holds cl) :
    ∃ slen2, props_body ⟨rest, out, str, slen, len, props, ext⟩ (b : Int)
        = .ok (⟨rest, out, str, slen2, len, props, ext⟩, false)
      ∧ slen2.Holds (if b = 0 then cl else cl ++ [b]) ∧ slen2.text ≠ none := by
  obtain ⟨slen2, h1, h2, h3⟩ := cstring_expand_holds slen cl b hl
  refine ⟨slen2, ?_, h2, h3⟩
  have hc : ((b : Int) == 42) = false := by
    simp; omega
  simp [props_body, hc, hsz, toChar_byte b hb2, h1, bind, Except.bind, pure, Except.pure]

/-- A byte of field content: within the declared length and below `0x80`. -/
theorem props_body_content (b : Nat) (rest : List Nat) (out : List Printf)
    (str slen : cstring_t) (len : Int) (props ext : Option Int) (cs : List Nat)
    (hb : b < 128) (hsz : str.size < toSizeT len) (hs : str.Holds cs) :
    ∃ str2, props_body ⟨rest, out, str, slen, len, props, ext⟩ (b : Int)
        = .ok (⟨rest, out, str2, slen, len, props, ext⟩, false)
      ∧ str2.Holds (if b = 0 then cs else cs ++ [b]) ∧ str2.text ≠ none := by
  obtain ⟨str2, h1, h2, h3⟩ := cstring_expand_holds str cs b hs
  refine ⟨str2, ?_, h2, h3⟩
  have hsz2 : ¬ (str.size ≥ toSizeT len) := by omega
  have hu : is_utf8 b = false := is_utf8_ascii b hb
  simp [props_body, hsz2, toChar_byte b (by omega), hu, h1, bind, Except.bind, pure, Except.pure]

theorem Holds_cstr (s : cstring_t) (c : List Nat) (h : s.Holds c) (hn : s.text ≠ none) :
    cstr s.text = .ok c := by
  obtain ⟨_, h⟩ := h
  cases ht : s.text with
  | none => exact absurd ht hn
  | some m =>
    rw [ht] at h
    exact h.2

theorem Holds_text (s : cstring_t) (c : List Nat) (h : s.Holds c) (hc : c ≠ []) :
    s.text ≠ none := by
  obtain ⟨_, h⟩ := h
  intro ht
  rw [ht] at h
  exact hc h.2

theorem Holds_init : cstring_init.Holds [] := by
  simp [cstring_t.Holds, cstring_init]

/-- A significant delimiter while `props` is not zero. -/
theorem props_body_delimiter (rest : List Nat) (out : List Printf)
    (str slen : cstring_t) (len p : Int) (ext : Option Int) (cs cl : List Nat)
    (hsz : str.size ≥ toSizeT len) (hs : str.Holds cs) (hl : slen.Holds cl)
    (hln : slen.text ≠ none) (hr1 : INT_MIN ≤ parseInt cl) (hr2 : parseInt cl ≤ INT_MAX)
    (hp : p ≠ 0) (hp2 : INT_MIN ≤ p - 1) (hp3 : p - 1 ≤ INT_MAX) :
    props_body ⟨rest, out, str, slen, len, some p, ext⟩ 42
        = .ok (⟨rest, out ++ [delimiterCall p cs],
                cstring_init, cstring_init, parseInt cl, some (p - 1), ext⟩, false) := by
  have ha : atoi slen.text = .ok (parseInt cl) := by
    simp [atoi, Holds_cstr slen cl hl hln, int, hr1, hr2, bind, Except.bind]
  have hi : int (p - 1) = .ok (p - 1) := by simp [int, hp2, hp3]
  have hcond : (((42 : Int) == 42) && decide (str.size ≥ toSizeT len)) = true := by
    simp [hsz]
  unfold props_body
  simp only [hcond, if_true]
  by_cases hc : cs = []
  · have h0 : ¬ (str.size > 0) := by rw [hs.1, hc]; simp
    simp [print_property, h0, ha, hc, hp, hi, rd, cstring_reset, cstring_init, delimiterCall,
      bind, Except.bind, pure, Except.pure]
  · have h0 : str.size > 0 := by
      rw [hs.1]; exact List.length_pos.mpr hc
    have ht := Holds_cstr str cs hs (Holds_text str cs hs hc)
    simp [print_property, h0, ha, hc, hp, hi, rd, ht, print_field, cstring_reset, cstring_init,
      delimiterCall, bind, Except.bind, pure, Except.pure]

/-! ## Length prefixes and field contents -/

/-- The bytes of a length prefix are gathered in `slen`. -/
theorem props_loop_prefix (ds : List Nat) (fuel : Nat) (rest : List Nat) (out : List Printf)
    (str slen : cstring_t) (len : Int) (props ext : Option Int) (cl : List Nat)
    (hds : ∀ d ∈ ds, d ≠ 42 ∧ d ≠ 0 ∧ d < 256) (hsz : str.size ≥ toSizeT len)
    (hl : slen.Holds cl) :
    ∃ slen2, props_loop (fuel + ds.length) ⟨ds ++ rest, out, str, slen, len, props, ext⟩
        = props_loop fuel ⟨rest, out, str, slen2, len, props, ext⟩
      ∧ slen2.Holds (cl ++ ds) ∧ (slen.text ≠ none ∨ ds ≠ [] → slen2.text ≠ none) := by
  induction ds generalizing slen cl with
  | nil => exact ⟨slen, by simp, by simpa using hl, by simp⟩
  | cons d t ih =>
    obtain ⟨h42, h0, h256⟩ := hds d (by simp)
    obtain ⟨s1, e1, hh1, hn1⟩ := props_body_prefix d (t ++ rest) out str slen len props ext cl
      h42 h256 hsz hl
    simp only [h0, if_false] at hh1
    obtain ⟨s2, e2, hh2, hn2⟩ := ih s1 (cl ++ [d]) (fun x hx => hds x (by simp [hx])) hh1
    refine ⟨s2, ?_, by simpa using hh2, ?_⟩
    · rw [List.length_cons, ← Nat.add_assoc, List.cons_append, props_loop_byte, e1]
      simpa [bind, Except.bind] using e2
    · exact fun _ => hn2 (Or.inl hn1)

/-- The bytes of a field below `0x80` are gathered in `str` while the declared
length is not reached, a `*` among them too. -/
theorem props_loop_content (bs : List Nat) (fuel : Nat) (rest : List Nat) (out : List Printf)
    (str slen : cstring_t) (len : Int) (props ext : Option Int) (cs : List Nat)
    (hbs : ∀ b ∈ bs, b ≠ 0 ∧ b < 128) (hlen : cs.length + bs.length ≤ toSizeT len)
    (hs : str.Holds cs) :
    ∃ str2, props_loop (fuel + bs.length) ⟨bs ++ rest, out, str, slen, len, props, ext⟩
        = props_loop fuel ⟨rest, out, str2, slen, len, props, ext⟩
      ∧ str2.Holds (cs ++ bs) := by
  induction bs generalizing str cs with
  | nil => exact ⟨str, by simp, by simpa using hs⟩
  | cons b t ih =>
    obtain ⟨h0, h128⟩ := hbs b (by simp)
    have hsz : str.size < toSizeT len := by
      rw [hs.1]; simp at hlen; omega
    obtain ⟨s1, e1, hh1, _⟩ := props_body_content b (t ++ rest) out str slen len props ext cs
      h128 hsz hs
    simp only [h0, if_false] at hh1
    obtain ⟨s2, e2, hh2⟩ := ih s1 (cs ++ [b]) (fun x hx => hbs x (by simp [hx]))
      (by simp at hlen ⊢; omega) hh1
    refine ⟨s2, ?_, by simpa using hh2⟩
    rw [List.length_cons, ← Nat.add_assoc, List.cons_append, props_loop_byte, e1]
    simpa [bind, Except.bind] using e2

/-! ## Decimal numerals -/

theorem digitsValue_append (ds : List Nat) (a0 : Nat) (acc : List Nat)
    (h : ∀ d ∈ ds, isdigit d = true) :
    digitsValue a0 (ds ++ acc)
      = digitsValue (a0 * 10 ^ ds.length + Nat.ofDigits 10 (ds.reverse.map (· - 48))) acc := by
  induction ds generalizing a0 with
  | nil => simp [Nat.ofDigits]
  | cons d t ih =>
    have hd := h d (by simp)
    simp only [List.cons_append, digitsValue, hd, if_true, List.append_eq]
    rw [ih _ (fun x hx => h x (by simp [hx]))]
    congr 1
    simp [Nat.ofDigits_append, pow_succ]
    ring

theorem decAux_spec (fuel n : Nat) (acc : List Nat) (h : n < fuel) :
    ∃ ds, decAux fuel n acc = ds ++ acc ∧ ds ≠ [] ∧ (∀ d ∈ ds, 48 ≤ d ∧ d ≤ 57)
      ∧ Nat.ofDigits 10 (ds.reverse.map (· - 48)) = n := by
  induction fuel generalizing n acc with
  | zero => omega
  | succ f ih =>
    by_cases hn : n < 10
    · refine ⟨[48 + n], by simp [decAux, hn], by simp, ?_, ?_⟩
      · intro d hd; simp at hd; omega
      · simp [Nat.ofDigits]
    · obtain ⟨ds, e, hne, hd, hv⟩ := ih (n / 10) ((48 + n % 10) :: acc) (by omega)
      refine ⟨ds ++ [48 + n % 10], by simp [decAux, hn, e], by simp, ?_, ?_⟩
      · intro d hd2
        simp at hd2
        rcases hd2 with h1 | h1
        · exact hd d h1
        · omega
      · have hv2 : Nat.ofDigits 10 (List.map (fun x => x - 48) ds).reverse = n / 10 := by
          simpa using hv
        simp [Nat.ofDigits_cons, hv2]
        omega

theorem dec_spec (n : Nat) :
    dec n ≠ [] ∧ (∀ d ∈ dec n, 48 ≤ d ∧ d ≤ 57) ∧ value (dec n) = n := by
  obtain ⟨ds, e, hne, hd, hv⟩ := decAux_spec (n + 1) n [] (by omega)
  simp only [List.append_nil] at e
  unfold dec value
  rw [e]
  exact ⟨hne, hd, hv⟩

theorem parseInt_digits (t : List Nat) (h : ∀ d ∈ t, 48 ≤ d ∧ d ≤ 57) :
    parseInt t = (value t : Int) := by
  have hv : digitsValue 0 t = value t := by
    have := digitsValue_append t 0 [] (fun d hd => by have := h d hd; simp [isdigit]; omega)
    simpa [digitsValue, value] using this
  cases t with
  | nil => simp [parseInt, digitsValue, value]
  | cons d t =>
    have hd := h d (by simp)
    have h1 : isspace d = false := by
      simp [isspace]; omega
    have h2 : d ≠ 45 := by omega
    have h3 : d ≠ 43 := by omega
    unfold parseInt
    rw [List.dropWhile_cons_of_neg (by simp [h1])]
    split
    · rename_i heq; simp at heq; omega
    · rename_i heq; simp at heq; omega
    · rw [hv]

/-! ## Fields and pairs -/

theorem props_loop_field (bs : List Nat) (fuel : Nat) (rest : List Nat) (out : List Printf)
    (str : cstring_t) (len p : Int) (ext : Option Int) (cs : List Nat)
    (hs : str.Holds cs) (hsz : str.size ≥ toSizeT len) (hbs : Plain bs)
    (hp : p ≠ 0) (hp2 : INT_MIN ≤ p - 1) (hp3 : p - 1 ≤ INT_MAX) :
    ∃ str2, props_loop (fuel + (encField bs).length)
          ⟨encField bs ++ rest, out, str, cstring_init, len, some p, ext⟩
        = props_loop fuel
          ⟨rest, out ++ [delimiterCall p cs], str2, cstring_init, (bs.length : Int),
            some (p - 1), ext⟩
      ∧ str2.Holds bs ∧ str2.size ≥ toSizeT (bs.length : Int) := by
  obtain ⟨hne, hdig, hval⟩ := dec_spec bs.length
  obtain ⟨slen2, e1, hl2, hn2⟩ := props_loop_prefix (dec bs.length)
    (fuel + bs.length + 1) (42 :: bs ++ rest) out str cstring_init len (some p) ext []
    (fun d hd => by have := hdig d hd; omega) hsz Holds_init
  have hpi : parseInt (dec bs.length) = (bs.length : Int) := by
    rw [parseInt_digits _ hdig, hval]
  simp only [List.nil_append] at hl2
  have e2 := props_body_delimiter (bs ++ rest) out str slen2 len p ext cs (dec bs.length)
    hsz hs hl2 (hn2 (Or.inr hne)) (by rw [hpi]; simp [INT_MIN]; omega) (by rw [hpi]; exact hbs.2)
    hp hp2 hp3
  obtain ⟨str2, e3, hs3⟩ := props_loop_content bs fuel rest
    (out ++ [delimiterCall p cs]) cstring_init cstring_init (bs.length : Int) (some (p - 1)) ext []
    (fun b hb => by have := hbs.1 b hb; omega)
    (by rw [toSizeT_nat _ hbs.2]; simp) Holds_init
  simp only [List.nil_append] at hs3
  refine ⟨str2, ?_, hs3, ?_⟩
  · have hlen : fuel + (encField bs).length = fuel + bs.length + 1 + (dec bs.length).length := by
      simp [encField]; omega
    rw [hlen]
    simp only [encField, List.append_assoc, List.cons_append]
    simp only [List.cons_append, List.append_assoc] at e1
    rw [e1, props_loop_byte]
    simp only [Nat.cast_ofNat] at *
    rw [e2, hpi]
    simp only [bind, Except.bind, Bool.false_eq_true, if_false]
    exact e3
  · rw [toSizeT_nat _ hbs.2, hs3.1]

theorem props_loop_pairs (ps : List (List Nat × List Nat)) (fuel : Nat) (rest : List Nat)
    (out : List Printf) (str : cstring_t) (len : Int) (ext : Option Int) (cs : List Nat)
    (hs : str.Holds cs) (hsz : str.size ≥ toSizeT len)
    (hps : ∀ p ∈ ps, Plain p.1 ∧ Plain p.2) (hN : 2 * (ps.length : Int) ≤ INT_MAX) :
    ∃ str2 len2, props_loop (fuel + (encPairs ps).length)
          ⟨encPairs ps ++ rest, out, str, cstring_init, len, some (2 * (ps.length : Int)), ext⟩
        = props_loop fuel
          ⟨rest, out ++ groupCalls cs ps, str2, cstring_init, len2, some 0, ext⟩
      ∧ str2.Holds (lastField cs ps) ∧ str2.size ≥ toSizeT len2 := by
  induction ps generalizing out str len cs with
  | nil => exact ⟨str, len, by simp [encPairs, groupCalls], by simpa [lastField] using hs, hsz⟩
  | cons kv ps ih =>
    obtain ⟨k, v⟩ := kv
    obtain ⟨hk, hv⟩ := hps (k, v) (by simp)
    have hN2 : 2 * (ps.length : Int) + 2 ≤ INT_MAX := by
      simp only [List.length_cons, Nat.cast_add, Nat.cast_one] at hN
      linarith
    have hI : INT_MIN = -2147483648 := rfl
    obtain ⟨s1, e1, h1, z1⟩ := props_loop_field k
      (fuel + (encPairs ps).length + (encField v).length) (encField v ++ (encPairs ps ++ rest))
      out str len (2 * (ps.length + 1 : Nat)) ext cs hs hsz hk
      (by push_cast; omega) (by push_cast; omega) (by push_cast; linarith)
    obtain ⟨s2, e2, h2, z2⟩ := props_loop_field v
      (fuel + (encPairs ps).length) (encPairs ps ++ rest)
      (out ++ [delimiterCall (2 * (ps.length + 1 : Nat)) cs]) s1 (k.length : Int)
      (2 * (ps.length + 1 : Nat) - 1) ext k h1 z1 hv
      (by push_cast; omega) (by push_cast; omega) (by push_cast; linarith)
    obtain ⟨s3, len3, e3, h3, z3⟩ := ih
      (out ++ [delimiterCall (2 * (ps.length + 1 : Nat)) cs]
        ++ [delimiterCall (2 * (ps.length + 1 : Nat) - 1) k]) s2 (v.length : Int) v h2 z2
      (fun p hp => hps p (by simp [hp])) (by linarith)
    refine ⟨s3, len3, ?_, by simpa [lastField] using h3, z3⟩
    have hlen : fuel + (encPairs ((k, v) :: ps)).length
        = fuel + (encPairs ps).length + (encField v).length + (encField k).length := by
      simp [encPairs]; omega
    have hp1 : (2 * ((ps.length + 1 : Nat) : Int) - 1 - 1) = 2 * (ps.length : Int) := by
      push_cast; ring
    have hp2 : (2 * ((ps.length + 1 : Nat) : Int) - 1) = 2 * (ps.length : Int) + 1 := by
      push_cast; ring
    rw [hp1] at e2
    rw [hp2] at e1 e2 e3
    rw [hlen]
    simp only [encPairs, List.append_assoc, List.length_cons, groupCalls]
    rw [e1, e2, e3]
    simp only [List.append_assoc, List.cons_append, List.nil_append]

/-! ## The header loop -/

theorem kept_digits (t : List Nat) (h : ∀ d ∈ t, 48 ≤ d ∧ d ≤ 57) : kept t = t := by
  induction t with
  | nil => rfl
  | cons d t ih =>
    have hd := h d (by simp)
    have h1 : toChar (d : Int) = d := toChar_byte d (by omega)
    have h2 : kept (d :: t) = d :: kept t := by
      unfold kept
      rw [List.map_cons, h1, List.filter_cons_of_pos]
      simp; omega
    rw [h2, ih (fun x hx => h x (by simp [hx]))]

/-- The header loop over the bytes of a token. -/
theorem flags_loop_token (t : List Nat) (rest : List Nat) (i : Int) (inp : List Nat)
    (out : List Printf) (str slen : cstring_t) (len : Int) (props ext : Option Int)
    (cs : List Nat) (h42 : 42 ∉ t) (hi : i ≠ 6) (hs : str.Holds cs) :
    ∃ str2, flags_loop (t ++ rest) i ⟨inp, out, str, slen, len, props, ext⟩
        = flags_loop rest i ⟨inp, out, str2, slen, len, props, ext⟩
      ∧ str2.Holds (cs ++ kept t) ∧ (str.text ≠ none ∨ t ≠ [] → str2.text ≠ none) := by
  induction t generalizing str cs with
  | nil => exact ⟨str, by simp, by simpa [kept] using hs, by simp⟩
  | cons b t ih =>
    have hb : ((b : Int) == 42) = false := by
      have : b ≠ 42 := fun h => h42 (by simp [h])
      simp; omega
    obtain ⟨s1, e1, hh1, hn1⟩ := cstring_expand_holds str cs (toChar (b : Int)) hs
    obtain ⟨s2, e2, hh2, hn2⟩ := ih s1 (if toChar (b : Int) = 0 then cs else cs ++ [toChar (b : Int)])
      (fun h => h42 (by simp [h])) hh1
    refine ⟨s2, ?_, ?_, fun _ => hn2 (Or.inl hn1)⟩
    · have hi2 : (i == 6) = false := by simpa using hi
      simp only [List.cons_append, flags_loop, hb, e1, bind, Except.bind, pure, Except.pure,
        hi2, Bool.false_eq_true, if_false]
      exact e2
    · have : cs ++ kept (b :: t)
          = (if toChar (b : Int) = 0 then cs else cs ++ [toChar (b : Int)]) ++ kept t := by
        by_cases h0 : toChar (b : Int) = 0 <;> simp [kept, h0]
      rw [this]; exact hh2

/-- The header loop at a delimiter that ends neither the third, the fourth nor the
sixth token. -/
theorem flags_loop_delimiter (rest : List Nat) (i : Int) (inp : List Nat)
    (out : List Printf) (str slen : cstring_t) (len : Int) (props ext : Option Int)
    (h3 : i + 1 ≠ 3) (h4 : i + 1 ≠ 4) (h6 : i + 1 ≠ 6) :
    flags_loop (42 :: rest) i ⟨inp, out, str, slen, len, props, ext⟩
      = flags_loop rest (i + 1) ⟨inp, out, cstring_init, slen, len, props, ext⟩ := by
  have e3 : (i + 1 == 3) = false := by simpa using h3
  have e4 : (i + 1 == 4) = false := by simpa using h4
  have e6 : (i + 1 == 6) = false := by simpa using h6
  simp [flags_loop, e3, e4, e6, bind, Except.bind, pure, Except.pure, cstring_reset, cstring_init]

/-- The header loop at the delimiter that ends the third token: `props` is set. -/
theorem flags_loop_third (rest : List Nat) (inp : List Nat)
    (out : List Printf) (str slen : cstring_t) (len : Int) (props ext : Option Int)
    (cs : List Nat) (hs : str.Holds cs) (hn : str.text ≠ none)
    (hr1 : INT_MIN ≤ parseInt cs) (hr2 : parseInt cs ≤ INT_MAX)
    (hr3 : INT_MIN ≤ parseInt cs * 2) (hr4 : parseInt cs * 2 ≤ INT_MAX) :
    flags_loop (42 :: rest) 2 ⟨inp, out, str, slen, len, props, ext⟩
      = flags_loop rest 3 ⟨inp, out, cstring_init, slen, len, some (parseInt cs * 2), ext⟩ := by
  have ha : atoi str.text = .ok (parseInt cs) := by
    simp [atoi, Holds_cstr str cs hs hn, int, hr1, hr2, bind, Except.bind]
  have hi : int (parseInt cs * 2) = .ok (parseInt cs * 2) := by simp [int, hr3, hr4]
  simp [flags_loop, ha, hi, bind, Except.bind, pure, Except.pure, cstring_reset, cstring_init]

/-- The header loop at the delimiter that ends the fourth token: `extends` is set. -/
theorem flags_loop_fourth (rest : List Nat) (inp : List Nat)
    (out : List Printf) (str slen : cstring_t) (len : Int) (props ext : Option Int)
    (cs : List Nat) (hs : str.Holds cs) (hn : str.text ≠ none)
    (hr1 : INT_MIN ≤ parseInt cs) (hr2 : parseInt cs ≤ INT_MAX)
    (hr3 : INT_MIN ≤ parseInt cs + 1) (hr4 : parseInt cs + 1 ≤ INT_MAX) :
    flags_loop (42 :: rest) 3 ⟨inp, out, str, slen, len, props, ext⟩
      = flags_loop rest 4 ⟨inp, out, cstring_init, slen, len, props, some (parseInt cs + 1)⟩ := by
  have ha : atoi str.text = .ok (parseInt cs) := by
    simp [atoi, Holds_cstr str cs hs hn, int, hr1, hr2, bind, Except.bind]
  have hi : int (parseInt cs + 1) = .ok (parseInt cs + 1) := by simp [int, hr3, hr4]
  simp [flags_loop, ha, hi, bind, Except.bind, pure, Except.pure, cstring_reset, cstring_init]

/-- The header loop at the delimiter that ends the sixth token: the loop is left. -/
theorem flags_loop_sixth (rest : List Nat) (inp : List Nat)
    (out : List Printf) (str slen : cstring_t) (len : Int) (props ext : Option Int) :
    flags_loop (42 :: rest) 5 ⟨inp, out, str, slen, len, props, ext⟩
      = .ok (6, ⟨rest, out, cstring_init, slen, len, props, ext⟩) := by
  simp [flags_loop, bind, Except.bind, pure, Except.pure, cstring_reset, cstring_init]

theorem flags_loop_header (t1 t2 t3 t4 t5 t6 rest inp : List Nat)
    (h1 : 42 ∉ t1) (h2 : 42 ∉ t2) (h5 : 42 ∉ t5) (h6 : 42 ∉ t6)
    (d3 : Numeral t3) (d4 : Numeral t4)
    (r3 : 2 * (value t3 : Int) ≤ INT_MAX) (r4 : (value t4 : Int) + 1 ≤ INT_MAX) :
    flags_loop (header t1 t2 t3 t4 t5 t6 ++ rest) 0 (Vars.init inp)
      = .ok (6, ⟨rest, [], cstring_init, cstring_init, 0,
          some (2 * (value t3 : Int)), some ((value t4 : Int) + 1)⟩) := by
  have h3 : 42 ∉ t3 := fun h => by have := d3.2 42 h; omega
  have h4 : 42 ∉ t4 := fun h => by have := d4.2 42 h; omega
  have p3 := parseInt_digits t3 d3.2
  have p4 := parseInt_digits t4 d4.2
  have hI : INT_MIN = -2147483648 := rfl
  have hM : INT_MAX = 2147483647 := rfl
  obtain ⟨s1, e1, -, -⟩ := flags_loop_token t1
    (42 :: (t2 ++ 42 :: (t3 ++ 42 :: (t4 ++ 42 :: (t5 ++ 42 :: (t6 ++ 42 :: rest))))))
    0 inp [] cstring_init cstring_init 0 none none [] h1 (by decide) Holds_init
  obtain ⟨s2, e2, -, -⟩ := flags_loop_token t2
    (42 :: (t3 ++ 42 :: (t4 ++ 42 :: (t5 ++ 42 :: (t6 ++ 42 :: rest)))))
    1 inp [] cstring_init cstring_init 0 none none [] h2 (by decide) Holds_init
  obtain ⟨s3, e3, hh3, hn3⟩ := flags_loop_token t3
    (42 :: (t4 ++ 42 :: (t5 ++ 42 :: (t6 ++ 42 :: rest))))
    2 inp [] cstring_init cstring_init 0 none none [] h3 (by decide) Holds_init
  obtain ⟨s4, e4, hh4, hn4⟩ := flags_loop_token t4
    (42 :: (t5 ++ 42 :: (t6 ++ 42 :: rest)))
    3 inp [] cstring_init cstring_init 0 (some (parseInt t3 * 2)) none [] h4 (by decide) Holds_init
  obtain ⟨s5, e5, -, -⟩ := flags_loop_token t5
    (42 :: (t6 ++ 42 :: rest))
    4 inp [] cstring_init cstring_init 0 (some (parseInt t3 * 2)) (some (parseInt t4 + 1)) []
    h5 (by decide) Holds_init
  obtain ⟨s6, e6, -, -⟩ := flags_loop_token t6
    (42 :: rest)
    5 inp [] cstring_init cstring_init 0 (some (parseInt t3 * 2)) (some (parseInt t4 + 1)) []
    h6 (by decide) Holds_init
  rw [List.nil_append, kept_digits t3 d3.2] at hh3
  rw [List.nil_append, kept_digits t4 d4.2] at hh4
  have c3 := flags_loop_third (t4 ++ 42 :: (t5 ++ 42 :: (t6 ++ 42 :: rest))) inp [] s3
    cstring_init 0 none none t3 hh3 (hn3 (Or.inr d3.1))
    (by rw [p3, hI]; omega) (by rw [p3, hM]; omega) (by rw [p3, hI]; omega) (by rw [p3, hM]; omega)
  have c4 := flags_loop_fourth (t5 ++ 42 :: (t6 ++ 42 :: rest)) inp [] s4
    cstring_init 0 (some (parseInt t3 * 2)) none t4 hh4 (hn4 (Or.inr d4.1))
    (by rw [p4, hI]; omega) (by rw [p4, hM]; omega) (by rw [p4, hI]; omega) (by rw [p4, hM]; omega)
  have hh : header t1 t2 t3 t4 t5 t6 ++ rest
      = t1 ++ 42 :: (t2 ++ 42 :: (t3 ++ 42 :: (t4 ++ 42 :: (t5 ++ 42 :: (t6 ++ 42 :: rest))))) := by
    simp [header]
  rw [hh]
  unfold Vars.init
  rw [e1, flags_loop_delimiter _ _ _ _ _ _ _ _ _ (by decide) (by decide) (by decide)]
  rw [show (0 : Int) + 1 = 1 from rfl, e2,
    flags_loop_delimiter _ _ _ _ _ _ _ _ _ (by decide) (by decide) (by decide)]
  rw [show (1 : Int) + 1 = 2 from rfl, e3, c3, e4, c4, e5,
    flags_loop_delimiter _ _ _ _ _ _ _ _ _ (by decide) (by decide) (by decide)]
  rw [show (4 : Int) + 1 = 5 from rfl, e6, flags_loop_sixth, p3, p4, mul_comm]

/-! ## The run on a message of one group -/

theorem message_eq (ps : List (List Nat × List Nat)) :
    message ps = 64 :: (header [48] [48] (dec ps.length) [48] [48] [48] ++ encPairs ps) := by
  have h1 : bytes "@0*0*" = [64, 48, 42, 48, 42] := by decide
  have h2 : bytes "*0*0*0*" = [42, 48, 42, 48, 42, 48, 42] := by decide
  simp [message, header, h1, h2]

theorem value_zero : value [48] = 0 := by
  simp [value, Nat.ofDigits]

/-- The whole run on a message of one group. -/
theorem main_message (ps : List (List Nat × List Nat))
    (hps : ∀ p ∈ ps, Plain p.1 ∧ Plain p.2) (hN : 2 * (ps.length : Int) ≤ INT_MAX) :
    main (message ps)
      = .ok ⟨0, groupCalls [] ps ++ eofCalls 0 (lastField [] ps)⟩ := by
  obtain ⟨hne, hdig, hval⟩ := dec_spec ps.length
  have hh := flags_loop_header [48] [48] (dec ps.length) [48] [48] [48] (encPairs ps)
    (header [48] [48] (dec ps.length) [48] [48] [48] ++ encPairs ps)
    (by decide) (by decide) (by decide) (by decide) ⟨hne, hdig⟩
    ⟨by decide, by decide⟩ (by rw [hval]; exact hN) (by rw [value_zero]; decide)
  rw [hval, value_zero] at hh
  simp only [Nat.cast_zero, zero_add] at hh
  obtain ⟨str2, len2, e, hs, _⟩ := props_loop_pairs ps 1 [] [] cstring_init 0 (some 1) []
    Holds_init (by decide) hps hN
  rw [props_loop_eof] at e
  simp only [List.append_nil, List.nil_append] at e
  rw [message_eq]
  have hfg : ∀ l : List Nat, fgetc (64 :: l) = (64, l) := fun l => rfl
  simp only [main, hfg, hh, bind, Except.bind]
  have he : ((some (1 : Int)).getD 0).toNat = 1 := by decide
  simp only [beq_self_eq_true, if_true, he, extends_loop, rd, extends_body, bind, Except.bind]
  have hpos : (1 : Int) > 0 := by decide
  simp only [hpos, if_true]
  rw [Nat.add_comm] at e
  rw [e]
  by_cases hc : lastField [] ps = []
  · have h0 : ¬ (str2.size > 0) := by rw [hs.1, hc]; simp
    simp [print_last, h0, hc, eofCalls, int, INT_MIN, INT_MAX, rd, pure, Except.pure]
  · have h0 : str2.size > 0 := by
      rw [hs.1]; exact List.length_pos.mpr hc
    have ht := Holds_cstr str2 _ hs (Holds_text str2 _ hs hc)
    simp [print_last, h0, hc, eofCalls, int, INT_MIN, INT_MAX, rd, print_field, ht, pure,
      Except.pure, bind, Except.bind]

/-! ## The bytes and lines written -/

theorem stdout_cons (c : Printf) (l : List Printf) : stdout (c :: l) = c.render ++ stdout l := by
  simp [stdout]

theorem render_even (n : Nat) (cs : List Nat) :
    (delimiterCall (2 * (n : Int)) cs).render = cs ++ [10] := by
  have h : (2 * (n : Int)) % 2 = 0 := by omega
  by_cases hc : cs = [] <;> simp [delimiterCall, hc, Printf.render, h]

theorem render_odd (n : Nat) (k : List Nat) (hk : k ≠ []) :
    (delimiterCall (2 * (n : Int) + 1) k).render = k ++ [58, 32] := by
  have h : (2 * (n : Int) + 1) % 2 = 1 := by omega
  simp [delimiterCall, hk, Printf.render, h]

/-- The bytes written for a group whose names are not empty. -/
theorem stdout_groupCalls (ps : List (List Nat × List Nat)) (cs : List Nat)
    (hk : ∀ p ∈ ps, p.1 ≠ []) :
    stdout (groupCalls cs ps ++ eofCalls 0 (lastField cs ps))
      = if ps = [] then (if cs = [] then [] else cs ++ [10]) else cs ++ (10 :: expected ps) := by
  induction ps generalizing cs with
  | nil =>
    by_cases hc : cs = [] <;>
      simp [groupCalls, eofCalls, lastField, hc, stdout, Printf.render]
  | cons kv ps ih =>
    obtain ⟨k, v⟩ := kv
    have hk1 : k ≠ [] := hk (k, v) (by simp)
    have ih2 := ih v (fun p hp => hk p (by simp [hp]))
    simp only [groupCalls, lastField, List.cons_append, stdout_cons, ih2, expected]
    rw [render_even, render_odd _ _ hk1]
    by_cases hps : ps = [] <;> simp [hps]

/-- A length prefix that names a length above `INT_MAX` makes `atoi` overflow at
the delimiter after it. -/
theorem props_loop_length_overflow (n : Nat) (hn : (n : Int) > INT_MAX) (fuel : Nat)
    (rest : List Nat) (out : List Printf) (str : cstring_t) (len p : Int) (ext : Option Int)
    (cs : List Nat) (hs : str.Holds cs) (hsz : str.size ≥ toSizeT len) :
    props_loop (fuel + 1 + (dec n).length)
        ⟨dec n ++ 42 :: rest, out, str, cstring_init, len, some p, ext⟩
      = .error .overflow := by
  obtain ⟨hne, hdig, hval⟩ := dec_spec n
  obtain ⟨slen2, e1, hl2, hn2⟩ := props_loop_prefix (dec n) (fuel + 1) (42 :: rest) out str
    cstring_init len (some p) ext [] (fun d hd => by have := hdig d hd; omega) hsz Holds_init
  simp only [List.nil_append] at hl2
  have hpi : parseInt (dec n) = (n : Int) := by rw [parseInt_digits _ hdig, hval]
  have ha : atoi slen2.text = .error .overflow := by
    have : ¬ ((n : Int) ≤ INT_MAX) := by omega
    simp [atoi, Holds_cstr slen2 _ hl2 (hn2 (Or.inr hne)), int, hpi, this, bind, Except.bind]
  have hcond : (((42 : Int) == 42) && decide (str.size ≥ toSizeT len)) = true := by
    simp [hsz]
  rw [e1, props_loop_byte]
  simp only [Nat.cast_ofNat]
  unfold props_body
  simp only [hcond, if_true]
  by_cases hc : cs = []
  · have h0 : ¬ (str.size > 0) := by rw [hs.1, hc]; simp
    simp [print_property, h0, ha, bind, Except.bind, pure, Except.pure]
  · have h0 : str.size > 0 := by
      rw [hs.1]; exact List.length_pos.mpr hc
    have ht := Holds_cstr str cs hs (Holds_text str cs hs hc)
    simp [print_property, h0, ha, rd, ht, print_field, bind, Except.bind, pure, Except.pure]

/-- The run on a message whose first name has `2^31` bytes. -/
theorem main_long_name (k v : List Nat) (hk : (k.length : Int) > INT_MAX) :
    main (message [(k, v)]) = .error .overflow := by
  obtain ⟨hne, hdig, hval⟩ := dec_spec 1
  have hh := flags_loop_header [48] [48] (dec 1) [48] [48] [48] (encPairs [(k, v)])
    (header [48] [48] (dec 1) [48] [48] [48] ++ encPairs [(k, v)])
    (by decide) (by decide) (by decide) (by decide) ⟨hne, hdig⟩
    ⟨by decide, by decide⟩ (by rw [hval]; decide) (by rw [value_zero]; decide)
  rw [hval, value_zero] at hh
  simp only [Nat.cast_zero, zero_add, Nat.cast_one, mul_one] at hh
  have e := props_loop_length_overflow k.length hk ((k ++ (encField v ++ [])).length + 1)
    (k ++ (encField v ++ [])) [] cstring_init 0 2 (some 1) [] Holds_init (by decide)
  have hm : message [(k, v)]
      = 64 :: (header [48] [48] (dec 1) [48] [48] [48] ++ encPairs [(k, v)]) := message_eq _
  rw [hm]
  have hfg : ∀ l : List Nat, fgetc (64 :: l) = (64, l) := fun l => rfl
  simp only [main, hfg, hh, bind, Except.bind]
  have he : ((some (1 : Int)).getD 0).toNat = 1 := by decide
  simp only [beq_self_eq_true, if_true, he, extends_loop, rd, extends_body, bind, Except.bind]
  have hpos : (1 : Int) > 0 := by decide
  simp only [hpos, if_true]
  have hlen : (encPairs [(k, v)]).length + 1
      = (k ++ (encField v ++ [])).length + 1 + 1 + (dec k.length).length := by
    simp only [encPairs, encField, List.length_append, List.length_cons, List.length_nil]
    omega
  have henc : encPairs [(k, v)] = dec k.length ++ 42 :: (k ++ (encField v ++ [])) := by
    simp [encPairs, encField]
  rw [hlen, henc, e]

/-- The calls of a group whose names and values are not empty. -/
theorem groupCalls_pairCalls (ps : List (List Nat × List Nat)) (cs : List Nat)
    (hk : ∀ p ∈ ps, p.1 ≠ [] ∧ p.2 ≠ []) :
    groupCalls cs ps ++ eofCalls 0 (lastField cs ps)
      = if ps = [] then eofCalls 0 cs
        else delimiterCall (2 * (ps.length : Int)) cs :: pairCalls ps := by
  induction ps generalizing cs with
  | nil => simp [groupCalls, lastField]
  | cons kv ps ih =>
    obtain ⟨k, v⟩ := kv
    obtain ⟨hk1, hv1⟩ := hk (k, v) (by simp)
    have ih2 := ih v (fun p hp => hk p (by simp [hp]))
    simp only [groupCalls, lastField, List.cons_append, ih2, pairCalls]
    by_cases hps : ps = []
    · subst hps
      simp [delimiterCall, eofCalls, hk1, hv1, pairCalls]
    · simp [delimiterCall, hk1, hv1, hps]

theorem mem_pairCalls (ps : List (List Nat × List Nat)) (p : List Nat × List Nat)
    (hp : p ∈ ps) :
    (∃ q : Int, q % 2 = 1 ∧ Printf.field q p.1 ∈ pairCalls ps)
      ∧ (∃ q : Int, q % 2 = 0 ∧ Printf.field q p.2 ∈ pairCalls ps) := by
  induction ps with
  | nil => simp at hp
  | cons kv ps ih =>
    obtain ⟨k, v⟩ := kv
    rcases List.mem_cons.mp hp with h | h
    · subst h
      exact ⟨⟨2 * (ps.length : Int) + 1, by omega, by simp [pairCalls]⟩,
        ⟨2 * (ps.length : Int), by omega, by simp [pairCalls]⟩⟩
    · obtain ⟨⟨q1, h1, m1⟩, ⟨q2, h2, m2⟩⟩ := ih h
      exact ⟨⟨q1, h1, by simp [pairCalls, m1]⟩, ⟨q2, h2, by simp [pairCalls, m2]⟩⟩

theorem linesFrom_plain (l cur : List Nat) (h : 10 ∉ l) :
    linesFrom l cur = if cur.reverse ++ l = [] then [] else [cur.reverse ++ l] := by
  induction l generalizing cur with
  | nil => by_cases hc : cur = [] <;> simp [linesFrom, hc]
  | cons b t ih =>
    have hb : b ≠ 10 := fun hb => h (by simp [hb])
    have ht : 10 ∉ t := fun ht => h (by simp [ht])
    simp [linesFrom, hb, ih (b :: cur) ht]

theorem linesFrom_newline (l cur t : List Nat) (h : 10 ∉ l) :
    linesFrom (l ++ 10 :: t) cur = (cur.reverse ++ l) :: linesFrom t [] := by
  induction l generalizing cur with
  | nil => simp [linesFrom]
  | cons b l ih =>
    have hb : b ≠ 10 := fun hb => h (by simp [hb])
    have ht : 10 ∉ l := fun ht => h (by simp [ht])
    simp [linesFrom, hb, ih (b :: cur) ht]

/-- The lines of the bytes written for the pairs, when no field holds a newline. -/
theorem lines_expected (ps : List (List Nat × List Nat))
    (h : ∀ p ∈ ps, 10 ∉ p.1 ∧ 10 ∉ p.2) :
    lines (expected ps) = ps.map pairLine := by
  induction ps with
  | nil => simp [lines, expected, linesFrom]
  | cons kv ps ih =>
    obtain ⟨k, v⟩ := kv
    obtain ⟨hk, hv⟩ := h (k, v) (by simp)
    have hkv : 10 ∉ k ++ ([58, 32] ++ v) := by simp [hk, hv]
    have ih2 := ih (fun p hp => h p (by simp [hp]))
    unfold lines at ih2 ⊢
    by_cases hps : ps = []
    · subst hps
      by_cases hv0 : v = []
      · subst hv0
        have := linesFrom_plain (k ++ [58, 32]) [] (by simp [hk])
        simpa [expected, pairLine] using this
      · have := linesFrom_newline (k ++ ([58, 32] ++ v)) [] [] hkv
        simpa [expected, pairLine, hv0, linesFrom] using this
    · have := linesFrom_newline (k ++ ([58, 32] ++ v)) [] (expected ps) hkv
      simpa [expected, pairLine, hps, ih2] using this

/-- The lines written for a message of one group. -/
theorem main_message_lines (ps : List (List Nat × List Nat))
    (hN : 1 ≤ ps.length) (h2N : 2 * (ps.length : Int) ≤ INT_MAX)
    (hps : ∀ p ∈ ps, Plain p.1 ∧ Plain p.2) (hk : ∀ p ∈ ps, p.1 ≠ [])
    (hnl : ∀ p ∈ ps, 10 ∉ p.1 ∧ 10 ∉ p.2) :
    ∃ e, main (message ps) = .ok e ∧ lines (stdout e.out) = [] :: ps.map pairLine := by
  refine ⟨_, main_message ps hps h2N, ?_⟩
  have hne : ps ≠ [] := by
    intro h; rw [h] at hN; simp at hN
  have h1 : stdout (groupCalls [] ps ++ eofCalls 0 (lastField [] ps)) = 10 :: expected ps := by
    simp [stdout_groupCalls ps [] hk, hne]
  have h2 := lines_expected ps hnl
  unfold lines at h2 ⊢
  simp only [h1, linesFrom, if_true, List.reverse_nil, h2]

theorem toSizeT_int (x : Int) (h0 : 0 ≤ x) (h1 : x ≤ INT_MAX) : toSizeT x = x.toNat := by
  obtain ⟨n, rfl⟩ := Int.eq_ofNat_of_zero_le h0
  rw [toSizeT_nat n h1]; simp

/-- In the comment of `smp.c` a backtick follows the sample message; the run on the
sample with that byte after it makes the same calls. -/
theorem main_sample_backtick :
    main (sample ++ [96])
      = .ok ⟨0, groupCalls [] samplePairs ++ eofCalls 0 (lastField [] samplePairs)⟩ := by
  decide

/-! ## Strip and append of a string -/

theorem Holds_block (s : cstring_t) (c : List Nat) (h : s.Holds c) (hn : s.text ≠ none) :
    0 ∉ c ∧ ∃ tail, s.text = some (c.map some ++ some 0 :: tail)
      ∧ s.alloc = c.length + 1 + tail.length := by
  obtain ⟨_, h⟩ := h
  cases ht : s.text with
  | none => exact absurd ht hn
  | some m =>
    rw [ht] at h
    obtain ⟨h0, tail, rfl⟩ := cstrBlock_ok m c h.2
    refine ⟨h0, tail, rfl, ?_⟩
    rw [← h.1]; simp; omega

theorem cstrBlock_terminated (c : List Nat) (t : Block) (hc : 0 ∉ c) :
    cstrBlock (c.map some ++ some 0 :: t) = .ok c := by
  rw [cstrBlock_append c _ hc]
  simp [cstrBlock, Except.map]

theorem subSizeT_le (a b : Nat) (ha : a ≤ SIZE_MAX) (hb : b ≤ a) : subSizeT a b = a - b := by
  unfold subSizeT
  unfold SIZE_MAX at *
  rw [Nat.mod_eq_of_lt (by omega : b < 18446744073709551615 + 1)]
  have : a + (18446744073709551615 + 1) - b = (a - b) + (18446744073709551615 + 1) := by omega
  rw [this, Nat.add_mod_right, Nat.mod_eq_of_lt (by omega)]

/-- What `cstring_strip` does to a buffer that holds `c` in an allocated block, for
`0 ≤ pos ≤ size` and `len ≥ 0`, when the bytes `memmove` reads lie in the block. -/
theorem cstring_strip_holds (s : cstring_t) (c : List Nat) (pos len : Nat)
    (h : s.Holds c) (hn : s.text ≠ none) (hsz : s.size ≤ SIZE_MAX)
    (hpos : pos ≤ c.length) (hr : ((pos + len : Nat) : Int) ≤ INT_MAX)
    (hroom : pos + len < c.length → c.length + len ≤ s.alloc) :
    ∃ s2, cstring_strip s (pos : Int) (len : Int) = .ok s2
      ∧ s2.Holds (c.take pos ++ c.drop (pos + len))
      ∧ s2.alloc = s.alloc ∧ s2.text ≠ none := by
  obtain ⟨h0, tail, ht, ha⟩ := Holds_block s c h hn
  have hsize := h.1
  have hI : INT_MIN = -2147483648 := rfl
  have hM : INT_MAX = 2147483647 := rfl
  have hsum : int ((pos : Int) + (len : Int)) = .ok ((pos + len : Nat) : Int) := by
    have h1 : INT_MIN ≤ (pos : Int) + (len : Int) := by omega
    have h2 : (pos : Int) + (len : Int) ≤ INT_MAX := by push_cast at hr; exact hr
    simp [int, h1, h2]
  have hts : toSizeT ((pos + len : Nat) : Int) = pos + len := toSizeT_nat _ hr
  have htp : toSizeT (pos : Int) = pos := toSizeT_nat _ (by push_cast at hr; omega)
  have htl : toSizeT (len : Int) = len := toSizeT_nat _ (by push_cast at hr; omega)
  have h0t : 0 ∉ c.take pos := fun hm => h0 (List.mem_of_mem_take hm)
  have h0d : 0 ∉ c.drop (pos + len) := fun hm => h0 (List.mem_of_mem_drop hm)
  by_cases hcase : pos + len ≥ c.length
  · -- the string is cut at `pos`
    have hsplit : c.map some ++ some 0 :: tail
        = (c.take pos).map some ++ ((c.drop pos).map some ++ some 0 :: tail) := by
      rw [← List.append_assoc, ← List.map_append, List.take_append_drop]
    have hlen : ((c.take pos).map some).length = pos := by simp [hpos]
    obtain ⟨a, rest, hrest⟩ : ∃ a rest, (c.drop pos).map some ++ some 0 :: tail = a :: rest := by
      cases hd : (c.drop pos).map some with
      | nil => exact ⟨some 0, tail, by simp⟩
      | cons a r => exact ⟨a, r ++ some 0 :: tail, by simp⟩
    have hset : (c.map some ++ some 0 :: tail).set pos (some 0)
        = (c.take pos).map some ++ some 0 :: rest := by
      rw [hsplit, hrest]
      have := set_append_length ((c.take pos).map some) a (some 0) rest
      rw [hlen] at this
      exact this
    have hdrop : c.drop (pos + len) = [] := List.drop_eq_nil_of_le hcase
    refine ⟨{ s with text := some ((c.take pos).map some ++ some 0 :: rest), size := pos },
      ?_, ?_, rfl, by simp⟩
    · have hlt : pos < (c.map some ++ some 0 :: tail).length := by simp; omega
      have hnn : ¬ ((pos : Int) < 0) := by omega
      simp only [cstring_strip, hsum, bind, Except.bind, hts, hsize, ge_iff_le, hcase, if_true,
        htp, hpos, storeAt, hnn, if_false, Int.toNat_ofNat, store, ht, hlt, hset, pure,
        Except.pure]
    · refine ⟨by simp [hdrop, hpos], ?_⟩
      simp only [hdrop, List.append_nil]
      refine ⟨?_, cstrBlock_terminated _ _ h0t⟩
      have : ((c.take pos).map some ++ some 0 :: rest).length
          = (c.map some ++ some 0 :: tail).length := by
        rw [← hset]; simp
      rw [this, ha]; simp; omega
  · -- the bytes after `pos + len` are moved down
    have hlt : pos + len < c.length := by omega
    have hroom2 := hroom hlt
    have hsub : subSizeT c.length pos = c.length - pos :=
      subSizeT_le _ _ (by rw [← hsize]; exact hsz) hpos
    have hsub2 : subSizeT c.length len = c.length - len :=
      subSizeT_le _ _ (by rw [← hsize]; exact hsz) (by omega)
    have hmlen : (c.map some ++ some 0 :: tail).length = s.alloc := by
      rw [ha]; simp; omega
    have htake : (c.map some ++ some 0 :: tail).take pos = (c.take pos).map some := by
      rw [List.take_append_of_le_length (by simp [hpos]), List.map_take]
    have hdrop : (c.map some ++ some 0 :: tail).drop (pos + len)
        = (c.drop (pos + len)).map some ++ some 0 :: tail := by
      rw [List.drop_append_of_le_length (by simp; omega), List.map_drop]
    have hdropn : (c.map some ++ some 0 :: tail).drop (pos + (c.length - pos))
        = some 0 :: tail := by
      have : pos + (c.length - pos) = (c.map some).length := by simp; omega
      rw [this, List.drop_left]
    have hmid : ((c.drop (pos + len)).map some ++ some 0 :: tail).take (c.length - pos)
        = (c.drop (pos + len)).map some ++ (some 0 :: tail).take len := by
      have : c.length - pos = ((c.drop (pos + len)).map some).length + len := by simp; omega
      rw [this, List.take_append]
    obtain ⟨T, hT⟩ : ∃ T, (some 0 :: tail).take len ++ some 0 :: tail = some (0 : Nat) :: T := by
      cases len with
      | zero => exact ⟨tail, by simp⟩
      | succ k => exact ⟨tail.take k ++ some 0 :: tail, by simp⟩
    have hR : (c.map some ++ some 0 :: tail).take pos
          ++ (((c.map some ++ some 0 :: tail).drop (pos + len)).take (c.length - pos)
            ++ (c.map some ++ some 0 :: tail).drop (pos + (c.length - pos)))
        = (c.take pos ++ c.drop (pos + len)).map some ++ some 0 :: T := by
      rw [htake, hdrop, hdropn, hmid, List.append_assoc, hT, List.map_append, List.append_assoc]
    have hRlen : ((c.take pos ++ c.drop (pos + len)).map some ++ some 0 :: T).length = s.alloc := by
      rw [← hR]
      simp only [List.length_append, List.length_take, List.length_drop, List.length_map,
        List.length_cons]
      omega
    refine ⟨{ s with text := some ((c.take pos ++ c.drop (pos + len)).map some ++ some 0 :: T),
                     size := c.length - len }, ?_, ?_, rfl, by simp⟩
    · have hng : ¬ (pos + len ≥ c.length) := hcase
      have hc1 : (0 : Int) ≤ (pos : Int) := by omega
      have hc2 : (0 : Int) ≤ ((pos + len : Nat) : Int) := by omega
      have hc3 : pos + (c.length - pos) ≤ (c.map some ++ some 0 :: tail).length := by
        rw [hmlen]; omega
      have hc4 : pos + len + (c.length - pos) ≤ (c.map some ++ some 0 :: tail).length := by
        rw [hmlen]; omega
      simp only [cstring_strip, hsum, bind, Except.bind, hts, hsize, ge_iff_le, hng, if_false,
        htp, htl, hsub, hsub2, memmove, ht, hc1, hc2, Int.toNat_ofNat, hc3, hc4, and_self,
        if_true, hR, pure, Except.pure]
    · refine ⟨by simp; omega, ?_⟩
      exact ⟨hRlen, cstrBlock_terminated _ _ (by
        intro hm
        rcases List.mem_append.mp hm with h1 | h1
        · exact h0t h1
        · exact h0d h1)⟩

theorem store_length (p : Option Block) (i x : Nat) (m : Block) (h : store p i x = .ok m) :
    ∃ m0, p = some m0 ∧ m.length = m0.length ∧ i < m0.length := by
  cases p with
  | none => simp [store] at h
  | some m0 =>
    by_cases hi : i < m0.length
    · simp only [store, hi, if_true, Except.ok.injEq] at h
      exact ⟨m0, rfl, by rw [← h]; simp, hi⟩
    · simp [store, hi] at h

theorem storeList_length (xs : List Nat) (p : Option Block) (i : Nat) (m : Block)
    (h : storeList p i xs = .ok m) : ∃ m0, p = some m0 ∧ m.length = m0.length := by
  induction xs generalizing p i with
  | nil =>
    cases p with
    | none => simp [storeList] at h
    | some m0 =>
      simp only [storeList, Except.ok.injEq] at h
      exact ⟨m0, rfl, by rw [h]⟩
  | cons x xs ih =>
    simp only [storeList, bind, Except.bind] at h
    cases h1 : store p i x with
    | error f => simp [h1] at h
    | ok m1 =>
      simp only [h1] at h
      obtain ⟨m0, hp, hl, _⟩ := store_length p i x m1 h1
      obtain ⟨m2, hp2, hl2⟩ := ih (some m1) (i + 1) h
      simp only [Option.some.injEq] at hp2
      exact ⟨m0, hp, by rw [hl2, ← hp2, hl]⟩

/-- A call of `cstring_expand_arr` that ends leaves room for the terminator and one
byte more. -/
theorem cstring_expand_arr_room (s : cstring_t) (c x : List Nat) (s2 : cstring_t)
    (h : s.Holds c) (he : cstring_expand_arr s x = .ok s2) : s2.alloc ≥ s2.size + 2 := by
  unfold cstring_expand_arr at he
  simp only [bind, Except.bind, strcat] at he
  -- the buffer after the test for room
  generalize hg : (if s.size + x.length + 1 > s.alloc then
      ({ s with alloc := (x.length + s.size + 1) * 1,
                text := some (realloc s.text ((x.length + s.size + 1) * 1)) } : cstring_t)
    else s) = g at he
  have hgl : ∀ m0, g.text = some m0 → m0.length = g.alloc := by
    intro m0 hm0
    by_cases hc : s.size + x.length + 1 > s.alloc
    · rw [if_pos hc] at hg
      subst hg
      simp only [Option.some.injEq] at hm0
      subst hm0
      cases ht : s.text with
      | none => simp [realloc]
      | some m1 =>
        have := h.2
        rw [ht] at this
        simp only [realloc, List.length_append, List.length_take, List.length_replicate]
        omega
    · rw [if_neg hc] at hg
      subst hg
      have := h.2
      rw [hm0] at this
      exact this.1
  cases h1 : strlen g.text with
  | error f => simp [h1] at he
  | ok n1 =>
    simp only [h1] at he
    cases h2 : storeList g.text n1 (x ++ [0]) with
    | error f => simp [h2] at he
    | ok m2 =>
      simp only [h2] at he
      cases h3 : strlen (some m2) with
      | error f => simp [h3] at he
      | ok n3 =>
        simp only [h3] at he
        cases h4 : store (some m2) (n3 + 1) 0 with
        | error f => simp [h4] at he
        | ok m4 =>
          simp only [h4, pure, Except.pure, Except.ok.injEq] at he
          obtain ⟨m0, hp, hl⟩ := storeList_length _ _ _ _ h2
          obtain ⟨m3, hp3, _, hlt⟩ := store_length _ _ _ _ h4
          simp only [Option.some.injEq] at hp3
          subst hp3
          rw [← he]
          simp only
          rw [← hgl m0 hp, ← hl]
          omega

theorem storeList_written (xs : List Nat) (pre old rest : Block)
    (h : old.length = xs.length) :
    storeList (some (pre ++ (old ++ rest))) pre.length xs
      = .ok (pre ++ (xs.map some ++ rest)) := by
  induction xs generalizing pre old with
  | nil =>
    have : old = [] := List.length_eq_zero.mp h
    simp [storeList, this]
  | cons x xs ih =>
    cases old with
    | nil => simp at h
    | cons a old =>
      have hlt : pre.length < (pre ++ a :: (old ++ rest)).length := by simp
      have hset : (pre ++ a :: (old ++ rest)).set pre.length (some x)
          = pre ++ (some x :: (old ++ rest)) := set_append_length pre a (some x) (old ++ rest)
      have ih2 := ih (pre ++ [some x]) old (by simpa using h)
      simp only [List.length_append, List.length_singleton, List.append_assoc,
        List.singleton_append] at ih2
      simp only [storeList, store, bind, Except.bind, List.map_cons, List.cons_append]
      rw [if_pos hlt, hset]
      exact ih2

/-- The function `cstring_expand_arr` on a buffer that holds `c` in a block with room
for the bytes of `x`, the terminator and one byte more. -/
theorem cstring_expand_arr_holds (s : cstring_t) (c x : List Nat) (h : s.Holds c)
    (hn : s.text ≠ none) (hx : 0 ∉ x) (hroom : c.length + x.length + 2 ≤ s.alloc) :
    ∃ s2, cstring_expand_arr s x = .ok s2 ∧ s2.Holds (c ++ x) ∧ s2.alloc = s.alloc := by
  obtain ⟨h0, tail, ht, ha⟩ := Holds_block s c h hn
  have hsize := h.1
  have hgrow : ¬ (s.size + x.length + 1 > s.alloc) := by omega
  -- the cells that are written: the old terminator, `x.length` cells, and one more
  have htl : x.length + 1 ≤ tail.length := by omega
  have hsplit : some 0 :: tail
      = ((some 0 :: tail).take (x.length + 1)) ++ (some 0 :: tail).drop (x.length + 1) := by
    rw [List.take_append_drop]
  obtain ⟨a, rest, hrest⟩ : ∃ a rest, (some (0 : Nat) :: tail).drop (x.length + 1) = a :: rest := by
    cases hd : (some (0 : Nat) :: tail).drop (x.length + 1) with
    | nil =>
      have := congrArg List.length hd
      simp at this
      omega
    | cons a r => exact ⟨a, r, rfl⟩
  have hw := storeList_written (x ++ [0]) (c.map some) ((some 0 :: tail).take (x.length + 1))
    (a :: rest) (by simp; omega)
  rw [← hrest, ← hsplit] at hw
  have h0cx : 0 ∉ c ++ x := by
    intro hm
    rcases List.mem_append.mp hm with h1 | h1
    · exact h0 h1
    · exact hx h1
  have hblock : c.map some ++ ((x ++ [0]).map some ++ (some 0 :: tail).drop (x.length + 1))
      = (c ++ x).map some ++ some 0 :: a :: rest := by
    rw [hrest]; simp
  rw [hblock] at hw
  have hlen1 : strlen (some (c.map some ++ some 0 :: tail)) = .ok c.length := by
    simp [strlen, cstr, cstrBlock_terminated c tail h0, Except.map]
  have hlen2 : strlen (some ((c ++ x).map some ++ some 0 :: a :: rest))
      = .ok (c ++ x).length := by
    simp only [strlen, cstr, cstrBlock_terminated (c ++ x) (a :: rest) h0cx, Except.map]
  have hset : ((c ++ x).map some ++ some 0 :: a :: rest).set ((c ++ x).length + 1) (some 0)
      = (c ++ x).map some ++ some 0 :: some 0 :: rest := by
    have := set_append_length ((c ++ x).map some ++ [some 0]) a (some 0) rest
    simp only [List.length_append, List.length_map, List.length_singleton, List.append_assoc,
      List.singleton_append] at this
    simp only [List.length_append]
    exact this
  have hlt : (c ++ x).length + 1 < ((c ++ x).map some ++ some 0 :: a :: rest).length := by
    simp only [List.length_append, List.length_map, List.length_cons]
    omega
  have hfin : ((c ++ x).map some ++ some 0 :: some 0 :: rest).length = s.alloc := by
    have e1 : ((c ++ x).map some ++ some 0 :: a :: rest).length
        = (c.map some ++ some 0 :: tail).length := by
      rw [← hblock, hrest]
      have := congrArg List.length hrest
      simp only [List.length_drop, List.length_cons] at this
      simp only [List.length_append, List.length_map, List.length_cons, List.length_singleton,
        List.length_nil]
      omega
    have e2 : ((c ++ x).map some ++ some 0 :: some 0 :: rest).length
        = ((c ++ x).map some ++ some 0 :: a :: rest).length := by simp
    rw [e2, e1, ha]; simp; omega
  refine ⟨{ s with text := some ((c ++ x).map some ++ some 0 :: some 0 :: rest),
                   size := (c ++ x).length }, ?_, ?_, rfl⟩
  · unfold cstring_expand_arr
    rw [if_neg hgrow]
    simp only [strcat, bind, Except.bind, ht, hlen1]
    have hw2 : storeList (some (c.map some ++ some 0 :: tail)) c.length (x ++ [0])
        = .ok ((c ++ x).map some ++ some 0 :: a :: rest) := by
      have : (c.map some).length = c.length := by simp
      rw [this] at hw
      exact hw
    simp only [hw2, hlen2, store, hlt, if_true, hset, pure, Except.pure]
  · exact ⟨rfl, hfin, cstrBlock_terminated _ _ h0cx⟩

/-- A call of `cstring_strip` with `pos ≥ 0` and `len ≥ 0` that ends leaves `alloc`
as it is and makes `size` no larger. -/
theorem cstring_strip_size (s s2 : cstring_t) (pos len : Nat) (hsz : s.size ≤ SIZE_MAX)
    (he : cstring_strip s (pos : Int) (len : Int) = .ok s2) :
    s2.alloc = s.alloc ∧ s2.size ≤ s.size := by
  unfold cstring_strip at he
  simp only [bind, Except.bind] at he
  by_cases hr : INT_MIN ≤ (pos : Int) + (len : Int) ∧ (pos : Int) + (len : Int) ≤ INT_MAX
  · have hM : INT_MAX = 2147483647 := rfl
    have hsum : int ((pos : Int) + (len : Int)) = .ok ((pos + len : Nat) : Int) := by
      simp [int, hr]
    have hts : toSizeT ((pos + len : Nat) : Int) = pos + len :=
      toSizeT_nat _ (by push_cast; exact hr.2)
    have htp : toSizeT (pos : Int) = pos := toSizeT_nat _ (by omega)
    have htl : toSizeT (len : Int) = len := toSizeT_nat _ (by omega)
    rw [hsum] at he
    simp only [hts, htp, htl] at he
    by_cases h1 : pos + len ≥ s.size
    · simp only [h1, if_true] at he
      by_cases h2 : pos ≤ s.size
      · simp only [h2, if_true] at he
        cases h3 : storeAt s.text (pos : Int) 0 with
        | error f => simp [h3] at he
        | ok m =>
          simp only [h3, pure, Except.pure, Except.ok.injEq] at he
          rw [← he]
          exact ⟨rfl, h2⟩
      · simp only [h2, if_false, pure, Except.pure, Except.ok.injEq] at he
        rw [← he]
        exact ⟨rfl, le_refl _⟩
    · simp only [h1, if_false] at he
      cases h3 : memmove s.text (pos : Int) ((pos : Int) + (len : Int)) (subSizeT s.size pos) with
      | error f => simp [h3] at he
      | ok m =>
        simp only [Nat.cast_add] at he
        simp only [h3, pure, Except.pure, Except.ok.injEq] at he
        rw [← he]
        refine ⟨rfl, ?_⟩
        simp only
        rw [subSizeT_le _ _ hsz (by omega)]
        omega
  · have : int ((pos : Int) + (len : Int)) = .error .overflow := by simp [int, hr]
    rw [this] at he
    simp at he

/-- A buffer that holds something in an allocated block has room for its terminator. -/
theorem Holds_room (s : cstring_t) (c : List Nat) (h : s.Holds c) (hn : s.text ≠ none) :
    s.alloc ≥ s.size + 1 := by
  obtain ⟨_, tail, _, ha⟩ := Holds_block s c h hn
  rw [ha, h.1]; omega

/-! ## The bytes of a character -/

theorem is_utf8_table : ∀ ch, ch < 256 →
    ((is_utf8 ch = true ↔ ch.testBit 7 = true) ∧ (is_utf8 ch = true ↔ 128 ≤ ch)) := by
  decide

theorem length_utf8_table : ∀ ch, ch < 256 →
    (length_utf8 ch = .ok (leadingOnes ch : Int) ∧ leadingOnes ch ≤ 8) := by
  decide

theorem leadingOnes_table : ∀ ch, ch < 256 →
    ((ch < 128 → leadingOnes ch = 0)
      ∧ (128 ≤ ch → ch < 192 → leadingOnes ch = 1)
      ∧ (192 ≤ ch → ch < 224 → leadingOnes ch = 2)) := by
  decide

theorem leadingOnes_table_high : ∀ ch, ch < 256 →
    ((224 ≤ ch → ch < 240 → leadingOnes ch = 3)
      ∧ (240 ≤ ch → ch < 248 → leadingOnes ch = 4)
      ∧ (ch = 255 → leadingOnes ch = 8)) := by
  decide

/-! ## No loop is short of fuel -/

theorem bind_ne_fuel {α β : Type} (r : Except Fault α) (f : α → Except Fault β)
    (h1 : r ≠ .error .fuel) (h2 : ∀ a, r = .ok a → f a ≠ .error .fuel) :
    (r >>= f) ≠ .error .fuel := by
  cases r with
  | error e =>
    simp only [bind, Except.bind]
    intro h
    apply h1
    simp only [Except.error.injEq] at h
    rw [h]
  | ok a =>
    simp only [bind, Except.bind]
    exact h2 a rfl

theorem int_ne_fuel (x : Int) : int x ≠ .error .fuel := by
  unfold int
  split <;> simp

theorem rd_ne_fuel (x : Option Int) : rd x ≠ .error .fuel := by
  cases x <;> simp [rd]

theorem store_ne_fuel (p : Option Block) (i x : Nat) : store p i x ≠ .error .fuel := by
  cases p with
  | none => simp [store]
  | some m =>
    by_cases h : i < m.length <;> simp [store, h]

theorem cstrBlock_ne_fuel (m : Block) : cstrBlock m ≠ .error .fuel := by
  induction m with
  | nil => simp [cstrBlock]
  | cons a t ih =>
    cases a with
    | none => simp [cstrBlock]
    | some b =>
      unfold cstrBlock
      split
      · simp
      · cases h : cstrBlock t with
        | error e =>
          simp only [Except.map]
          intro h2
          apply ih
          rw [h]
          simpa using h2
        | ok c => simp [Except.map]

theorem cstr_ne_fuel (p : Option Block) : cstr p ≠ .error .fuel := by
  cases p with
  | none => simp [cstr]
  | some m => exact cstrBlock_ne_fuel m

theorem strlen_ne_fuel (p : Option Block) : strlen p ≠ .error .fuel := by
  unfold strlen
  cases h : cstr p with
  | error e =>
    simp only [Except.map]
    intro h2
    apply cstr_ne_fuel p
    rw [h]
    simpa using h2
  | ok c => simp [Except.map]

theorem cstring_expand_ne_fuel (s : cstring_t) (x : Nat) :
    cstring_expand s x ≠ .error .fuel := by
  unfold cstring_expand
  refine bind_ne_fuel _ _ (store_ne_fuel _ _ _) (fun m _ => ?_)
  refine bind_ne_fuel _ _ (store_ne_fuel _ _ _) (fun m2 _ => ?_)
  refine bind_ne_fuel _ _ (strlen_ne_fuel _) (fun n _ => ?_)
  simp [pure, Except.pure]

theorem atoi_ne_fuel (p : Option Block) : atoi p ≠ .error .fuel := by
  unfold atoi
  exact bind_ne_fuel _ _ (cstr_ne_fuel _) (fun s _ => int_ne_fuel _)

theorem print_field_spec (v : Vars) :
    print_field v ≠ .error .fuel
      ∧ ∀ w, print_field v = .ok w →
          w.input = v.input ∧ w.extends_ = v.extends_ ∧ w.str = v.str ∧ w.slen = v.slen
            ∧ w.len = v.len ∧ w.props = v.props := by
  unfold print_field
  constructor
  · refine bind_ne_fuel _ _ (rd_ne_fuel _) (fun p _ => ?_)
    refine bind_ne_fuel _ _ (cstr_ne_fuel _) (fun t _ => ?_)
    simp [pure, Except.pure]
  · intro w hw
    simp only [bind, Except.bind] at hw
    cases h1 : rd v.props with
    | error e => simp [h1] at hw
    | ok p =>
      simp only [h1] at hw
      cases h2 : cstr v.str.text with
      | error e => simp [h2] at hw
      | ok t =>
        simp only [h2, pure, Except.pure, Except.ok.injEq] at hw
        subst hw
        simp

theorem print_property_spec (v : Vars) :
    print_property v ≠ .error .fuel
      ∧ ∀ w, print_property v = .ok w →
          w.input = v.input ∧ w.extends_ = v.extends_ ∧ w.str = v.str ∧ w.slen = v.slen
            ∧ w.len = v.len ∧ w.props = v.props := by
  unfold print_property
  split
  · exact print_field_spec v
  · constructor
    · simp [pure, Except.pure]
    · intro w hw
      simp only [pure, Except.pure, Except.ok.injEq] at hw
      subst hw
      simp

theorem print_last_spec (v : Vars) :
    print_last v ≠ .error .fuel
      ∧ ∀ w, print_last v = .ok w →
          w.input = v.input ∧ w.extends_ = v.extends_ ∧ w.str = v.str ∧ w.slen = v.slen
            ∧ w.len = v.len ∧ w.props = v.props := by
  unfold print_last
  split
  · exact print_field_spec v
  · constructor
    · simp [pure, Except.pure]
    · intro w hw
      simp only [pure, Except.pure, Except.ok.injEq] at hw
      subst hw
      simp

theorem toChar_lt (c : Int) : toChar c < 256 := by
  unfold toChar
  have h1 : 0 ≤ c % 256 := Int.emod_nonneg c (by decide)
  have h2 : c % 256 < 256 := Int.emod_lt_of_pos c (by decide)
  omega

theorem length_utf8_toChar (c : Int) :
    ∃ n : Nat, length_utf8 (toChar c) = .ok (n : Int) ∧ n ≤ 8 :=
  ⟨leadingOnes (toChar c), (length_utf8_table _ (toChar_lt c)).1,
    (length_utf8_table _ (toChar_lt c)).2⟩

theorem skip_loop_length (l : List Nat) : (skip_loop l).length ≤ l.length := by
  induction l with
  | nil => simp [skip_loop]
  | cons b t ih =>
    unfold skip_loop
    split
    · simp only [List.length_cons]; omega
    · simp

theorem fgetc_length (l : List Nat) : (fgetc l).2.length ≤ l.length := by
  cases l <;> simp [fgetc]

/-- The loop over the bytes of a character, begun with `i ≥ 1`, is not short of the
fuel 9: the length of no byte exceeds 8. It reads on in the input and leaves `slen`,
`props`, `extends` and the output as they are. -/
theorem utf8_loop_spec (fuel : Nat) (i c : Int) (v : Vars) (h : 10 ≤ i + (fuel + 1)) :
    utf8_loop (fuel + 1) i c v ≠ .error .fuel
      ∧ ∀ w, utf8_loop (fuel + 1) i c v = .ok w →
          w.input.length ≤ v.input.length ∧ w.extends_ = v.extends_ ∧ w.slen = v.slen
            ∧ w.props = v.props ∧ w.out = v.out := by
  induction fuel generalizing i c v with
  | zero =>
    obtain ⟨n, hn, hn8⟩ := length_utf8_toChar c
    have hi : ¬ (i ≤ (n : Int)) := by omega
    simp only [utf8_loop, hn, bind, Except.bind, hi, if_false, pure, Except.pure]
    exact ⟨by simp, fun w hw => by simp only [Except.ok.injEq] at hw; subst hw; simp⟩
  | succ k ih =>
    obtain ⟨n, hn, hn8⟩ := length_utf8_toChar c
    unfold utf8_loop
    simp only [hn, bind, Except.bind]
    by_cases hi : i ≤ (n : Int)
    · simp only [hi, if_true]
      cases hx : cstring_expand v.str (toChar (fgetc v.input).1) with
      | error f =>
        have := cstring_expand_ne_fuel v.str (toChar (fgetc v.input).1)
        rw [hx] at this
        refine ⟨fun hh => ?_, fun w hw => by simp at hw⟩
        simp only [Except.error.injEq] at hh
        exact this (by rw [hh])
      | ok str2 =>
        simp only
        cases hl : int (v.len + 1) with
        | error f =>
          have := int_ne_fuel (v.len + 1)
          rw [hl] at this
          refine ⟨fun hh => ?_, fun w hw => by simp at hw⟩
          simp only [Except.error.injEq] at hh
          exact this (by rw [hh])
        | ok len2 =>
          simp only
          have ih2 := ih (i + 1) (fgetc v.input).1
            { v with input := (fgetc v.input).2, str := str2, len := len2 }
            (by push_cast at h ⊢; omega)
          refine ⟨ih2.1, fun w hw => ?_⟩
          obtain ⟨h1, h2, h3, h4, h5⟩ := ih2.2 w hw
          have := fgetc_length v.input
          simp only at h1 h2 h3 h4 h5
          exact ⟨by omega, h2, h3, h4, h5⟩
    · simp only [hi, if_false, pure, Except.pure]
      exact ⟨by simp, fun w hw => by simp only [Except.ok.injEq] at hw; subst hw; simp⟩

theorem bind_spec {α β : Type} (r : Except Fault α) (f : α → Except Fault β) (P : β → Prop)
    (h1 : r ≠ .error .fuel)
    (h2 : ∀ a, r = .ok a → f a ≠ .error .fuel ∧ ∀ b, f a = .ok b → P b) :
    (r >>= f) ≠ .error .fuel ∧ ∀ b, (r >>= f) = .ok b → P b := by
  cases r with
  | error e =>
    simp only [bind, Except.bind]
    refine ⟨fun h => ?_, fun b hb => by simp at hb⟩
    apply h1
    simp only [Except.error.injEq] at h
    rw [h]
  | ok a =>
    simp only [bind, Except.bind]
    exact h2 a rfl

theorem pure_spec {β : Type} (b : β) (P : β → Prop) (h : P b) :
    (pure b : Except Fault β) ≠ .error .fuel ∧ ∀ b2, (pure b : Except Fault β) = .ok b2 → P b2 := by
  refine ⟨by simp [pure, Except.pure], fun b2 hb => ?_⟩
  simp only [pure, Except.pure, Except.ok.injEq] at hb
  rw [← hb]; exact h

/-- A pass of the byte loop is not short of fuel; it reads on in the input, never
back, and leaves `extends` as it is. -/
theorem props_body_spec (v : Vars) (c : Int) :
    props_body v c ≠ .error .fuel
      ∧ ∀ r, props_body v c = .ok r →
          r.1.input.length ≤ v.input.length ∧ r.1.extends_ = v.extends_ := by
  unfold props_body
  split
  · refine bind_spec _ _ _ (print_property_spec v).1 (fun v1 h1 => ?_)
    obtain ⟨e1, e2, -⟩ := (print_property_spec v).2 v1 h1
    have e1l : v1.input.length = v.input.length := by rw [e1]
    refine bind_spec _ _ _ (atoi_ne_fuel _) (fun len _ => ?_)
    refine bind_spec _ _ _ (rd_ne_fuel _) (fun p _ => ?_)
    split
    · refine bind_spec _ _ _ (int_ne_fuel _) (fun p2 _ => ?_)
      refine pure_spec _ _ ?_
      have := skip_loop_length v1.input
      simp only
      exact ⟨by omega, e2⟩
    · refine bind_spec _ _ _ (int_ne_fuel _) (fun p2 _ => ?_)
      refine pure_spec _ _ ?_
      simp only
      exact ⟨by omega, e2⟩
  · split
    · refine bind_spec _ _ _ (cstring_expand_ne_fuel _ _) (fun s2 _ => ?_)
      exact pure_spec _ _ ⟨le_refl _, rfl⟩
    · split
      · refine bind_spec _ _ _ (cstring_expand_ne_fuel _ _) (fun s2 _ => ?_)
        have hu := utf8_loop_spec 8 1 c { v with str := s2 } (by decide)
        refine bind_spec _ _ _ hu.1 (fun w hw => ?_)
        obtain ⟨h1, h2, -⟩ := hu.2 w hw
        exact pure_spec _ _ ⟨h1, h2⟩
      · refine bind_spec _ _ _ (cstring_expand_ne_fuel _ _) (fun s2 _ => ?_)
        exact pure_spec _ _ ⟨le_refl _, rfl⟩

/-- The byte loop is not short of fuel when given more than the number of bytes left
to read; it leaves `extends` as it is. -/
theorem props_loop_spec (fuel : Nat) (v : Vars) (h : v.input.length < fuel) :
    props_loop fuel v ≠ .error .fuel
      ∧ ∀ w, props_loop fuel v = .ok w →
          w.input.length ≤ v.input.length ∧ w.extends_ = v.extends_ := by
  induction fuel generalizing v with
  | zero => omega
  | succ k ih =>
    unfold props_loop
    cases hin : v.input with
    | nil =>
      simp only [fgetc, EOF, bne_self_eq_false, Bool.false_eq_true, if_false]
      exact pure_spec _ _ ⟨by simp, rfl⟩
    | cons b rest =>
      have hb : ((b : Int) != EOF) = true := by simp [EOF]
      simp only [fgetc, hb, if_true]
      have hs := props_body_spec { v with input := rest } (b : Int)
      refine bind_spec _ _ _ hs.1 (fun r hr => ?_)
      obtain ⟨h1, h2⟩ := hs.2 r hr
      simp only at h1 h2
      rw [hin] at h
      simp only [List.length_cons] at h ⊢
      obtain ⟨w, brk⟩ := r
      simp only at h1 h2 ⊢
      cases brk with
      | true =>
        simp only [if_true]
        exact pure_spec _ _ ⟨by omega, h2⟩
      | false =>
        simp only [Bool.false_eq_true, if_false]
        have ih2 := ih w (by omega)
        refine ⟨ih2.1, fun w2 hw2 => ?_⟩
        obtain ⟨h3, h4⟩ := ih2.2 w2 hw2
        exact ⟨by omega, by rw [h4, h2]⟩

theorem int_ok (x y : Int) (h : int x = .ok y) : y = x := by
  unfold int at h
  split at h
  · simp only [Except.ok.injEq] at h; exact h.symm
  · simp at h

/-- A pass of `while (extends > 0)` is not short of fuel and takes one off `extends`. -/
theorem extends_body_spec (v : Vars) :
    extends_body v ≠ .error .fuel
      ∧ ∀ w, extends_body v = .ok w →
          ∃ e, v.extends_ = some e ∧ w.extends_ = some (e - 1) := by
  unfold extends_body
  have hp := props_loop_spec ({ v with len := 0 } : Vars).input.length.succ { v with len := 0 }
    (Nat.lt_succ_self _)
  refine bind_spec _ _ _ hp.1 (fun v1 h1 => ?_)
  obtain ⟨-, e1⟩ := hp.2 v1 h1
  refine bind_spec _ _ _ (print_last_spec v1).1 (fun v2 h2 => ?_)
  obtain ⟨-, e2, -⟩ := (print_last_spec v1).2 v2 h2
  refine bind_spec _ _ _ (rd_ne_fuel _) (fun e he => ?_)
  refine bind_spec _ _ _ (int_ne_fuel _) (fun e3 he3 => ?_)
  refine pure_spec _ _ ⟨e, ?_, ?_⟩
  · rw [e2, e1] at he
    simp only at he
    cases hx : v.extends_ with
    | none => simp [hx, rd] at he
    | some a =>
      simp only [hx, rd, Except.ok.injEq] at he
      rw [he]
  · simp only
    rw [int_ok _ _ he3]

/-- The loop `while (extends > 0)` is not short of fuel when given the value of
`extends`: it makes at most that many passes. -/
theorem extends_loop_spec (fuel : Nat) (v : Vars)
    (h : ∀ e, v.extends_ = some e → e.toNat ≤ fuel) :
    extends_loop fuel v ≠ .error .fuel := by
  induction fuel generalizing v with
  | zero =>
    unfold extends_loop
    cases hx : v.extends_ with
    | none => simp [rd, bind, Except.bind]
    | some e =>
      have := h e hx
      have he : ¬ (e > 0) := by omega
      simp [rd, bind, Except.bind, he, pure, Except.pure]
  | succ k ih =>
    unfold extends_loop
    cases hx : v.extends_ with
    | none => simp [rd, bind, Except.bind]
    | some e =>
      simp only [rd, bind, Except.bind]
      by_cases he : e > 0
      · simp only [he, if_true]
        have hb := extends_body_spec v
        cases hw : extends_body v with
        | error f =>
          simp only
          intro hh
          apply hb.1
          rw [hw]
          simp only [Except.error.injEq] at hh
          rw [hh]
        | ok w =>
          simp only
          obtain ⟨e2, h1, h2⟩ := hb.2 w hw
          refine ih w (fun e3 he3 => ?_)
          rw [hx] at h1
          simp only [Option.some.injEq] at h1
          rw [h2] at he3
          simp only [Option.some.injEq] at he3
          have := h e hx
          omega
      · simp [he, pure, Except.pure]

theorem pure_ne_fuel {α : Type} (x : α) : (pure x : Except Fault α) ≠ .error .fuel := by
  simp [pure, Except.pure]

theorem flags_loop_ne_fuel (l : List Nat) (i : Int) (v : Vars) :
    flags_loop l i v ≠ .error .fuel := by
  induction l generalizing i v with
  | nil => simp [flags_loop]
  | cons b rest ih =>
    unfold flags_loop
    dsimp only
    have hjp : ∀ r : Int × Vars,
        (match r with
          | (i, v) => if (i == 6) = true then
              Except.ok (i, ({ v with input := rest } : Vars))
            else flags_loop rest i v) ≠ .error .fuel := by
      intro r
      obtain ⟨i2, v2⟩ := r
      simp only
      split
      · simp
      · exact ih i2 v2
    have hat : ∀ f : Int → Int,
        (do let a ← atoi v.str.text; let p ← int (f a); pure (some p) : Except Fault (Option Int))
          ≠ .error .fuel := by
      intro f
      refine bind_ne_fuel _ _ (atoi_ne_fuel _) (fun a _ => ?_)
      exact bind_ne_fuel _ _ (int_ne_fuel _) (fun a2 _ => pure_ne_fuel _)
    split
    · split
      · refine bind_ne_fuel _ _ (hat (fun a => a * 2)) (fun p _ => ?_)
        split
        · refine bind_ne_fuel _ _ (hat (fun a => a + 1)) (fun p _ => ?_)
          exact bind_ne_fuel _ _ (pure_ne_fuel _) (fun r _ => hjp r)
        · refine bind_ne_fuel _ _ (pure_ne_fuel _) (fun p _ => ?_)
          exact bind_ne_fuel _ _ (pure_ne_fuel _) (fun r _ => hjp r)
      · refine bind_ne_fuel _ _ (pure_ne_fuel _) (fun p _ => ?_)
        split
        · refine bind_ne_fuel _ _ (hat (fun a => a + 1)) (fun p _ => ?_)
          exact bind_ne_fuel _ _ (pure_ne_fuel _) (fun r _ => hjp r)
        · refine bind_ne_fuel _ _ (pure_ne_fuel _) (fun p _ => ?_)
          exact bind_ne_fuel _ _ (pure_ne_fuel _) (fun r _ => hjp r)
    · refine bind_ne_fuel _ _ (cstring_expand_ne_fuel _ _) (fun s2 _ => ?_)
      exact bind_ne_fuel _ _ (pure_ne_fuel _) (fun r _ => hjp r)

/-- The run of `main` is never short of fuel: every loop ends. -/
theorem main_ne_fuel (input : List Nat) : main input ≠ .error .fuel := by
  unfold main
  cases input with
  | nil => simp [fgetc, EOF]
  | cons b rest =>
    simp only [fgetc]
    split
    · refine bind_ne_fuel _ _ (flags_loop_ne_fuel _ _ _) (fun r _ => ?_)
      obtain ⟨i, v⟩ := r
      simp only
      refine bind_ne_fuel _ _ (extends_loop_spec _ v (fun e he => ?_)) (fun w _ => ?_)
      · rw [he]; simp
      · simp [pure, Except.pure]
    · simp

/-- The loop over the bytes of a character, begun with `1 ≤ i ≤ 9`, adds at most
`9 - i` to `len`: one for each pass of its body. -/
theorem utf8_loop_len (fuel : Nat) (i c : Int) (v w : Vars) (hi9 : i ≤ 9)
    (h : utf8_loop fuel i c v = .ok w) : v.len ≤ w.len ∧ w.len ≤ v.len + (9 - i) := by
  induction fuel generalizing i c v with
  | zero => simp [utf8_loop] at h
  | succ k ih =>
    obtain ⟨n, hn, hn8⟩ := length_utf8_toChar c
    unfold utf8_loop at h
    simp only [hn, bind, Except.bind] at h
    by_cases hi : i ≤ (n : Int)
    · simp only [hi, if_true] at h
      cases hx : cstring_expand v.str (toChar (fgetc v.input).1) with
      | error f => simp [hx] at h
      | ok str2 =>
        simp only [hx] at h
        cases hl : int (v.len + 1) with
        | error f => simp [hl] at h
        | ok len2 =>
          simp only [hl] at h
          have e := int_ok _ _ hl
          have := ih (i + 1) (fgetc v.input).1
            { v with input := (fgetc v.input).2, str := str2, len := len2 } (by omega) h
          simp only at this
          omega
    · simp only [hi, if_false, pure, Except.pure, Except.ok.injEq] at h
      subst h
      omega

/-- The loop `do c = fgetc(input); while (c != EOF && c != '*')` stops behind the
first `'*'`, or at the end of the stream when there is none. -/
theorem skip_loop_stops (l : List Nat) :
    (∃ pre, 42 ∉ pre ∧ l = pre ++ 42 :: skip_loop l) ∨ (42 ∉ l ∧ skip_loop l = []) := by
  induction l with
  | nil => right; simp [skip_loop]
  | cons b t ih =>
    by_cases hb : b = 42
    · left
      refine ⟨[], by simp, ?_⟩
      subst hb
      simp [skip_loop]
    · have hb2 : ((b : Int) != 42) = true := by simp; omega
      have hb3 : ((b : Int) != EOF) = true := by simp [EOF]
      have e : skip_loop (b :: t) = skip_loop t := by
        simp only [skip_loop, hb2, hb3, Bool.and_self, if_true]
      rw [e]
      rcases ih with ⟨pre, h1, h2⟩ | ⟨h1, h2⟩
      · left
        refine ⟨b :: pre, ?_, ?_⟩
        · simp only [List.mem_cons, not_or]
          exact ⟨fun h => hb h.symm, h1⟩
        · rw [List.cons_append, ← h2]
      · right
        refine ⟨?_, h2⟩
        simp only [List.mem_cons, not_or]
        exact ⟨fun h => hb h.symm, h1⟩

/-! ## The heads of the byte loop -/

theorem int_range (x y : Int) (h : int x = .ok y) : INT_MIN ≤ y ∧ y ≤ INT_MAX := by
  unfold int at h
  split at h
  · simp only [Except.ok.injEq] at h; subst h; assumption
  · simp at h

theorem atoi_range (p : Option Block) (y : Int) (h : atoi p = .ok y) : y ≤ INT_MAX := by
  unfold atoi at h
  simp only [bind, Except.bind] at h
  cases hc : cstr p with
  | error e => simp [hc] at h
  | ok s =>
    simp only [hc] at h
    exact (int_range _ _ h).2

theorem utf8_loop_len_int (fuel : Nat) (i c : Int) (v w : Vars) (hl : v.len ≤ INT_MAX)
    (h : utf8_loop fuel i c v = .ok w) : w.len ≤ INT_MAX := by
  induction fuel generalizing i c v with
  | zero => simp [utf8_loop] at h
  | succ k ih =>
    unfold utf8_loop at h
    simp only [bind, Except.bind] at h
    cases hn : length_utf8 (toChar c) with
    | error f => simp [hn] at h
    | ok n =>
      simp only [hn] at h
      by_cases hi : i ≤ n
      · simp only [hi, if_true] at h
        cases hx : cstring_expand v.str (toChar (fgetc v.input).1) with
        | error f => simp [hx] at h
        | ok str2 =>
          simp only [hx] at h
          cases hl2 : int (v.len + 1) with
          | error f => simp [hl2] at h
          | ok len2 =>
            simp only [hl2] at h
            exact ih (i + 1) (fgetc v.input).1
              { v with input := (fgetc v.input).2, str := str2, len := len2 }
              (int_range _ _ hl2).2 h
      · simp only [hi, if_false, pure, Except.pure, Except.ok.injEq] at h
        subst h
        exact hl

/-- Which buffer a pass of the byte loop touches: with `str->size >= len` the field
content is left alone, or emptied together with the length prefix at a delimiter;
otherwise the length prefix is left alone. -/
theorem props_body_accum (v : Vars) (c : Int) (hl : v.len ≤ INT_MAX)
    (r : Vars × Bool) (h : props_body v c = .ok r) :
    r.1.len ≤ INT_MAX
      ∧ (v.str.size ≥ toSizeT v.len →
          (r.1.str = v.str ∧ r.1.len = v.len ∧ r.2 = false)
            ∨ (c = 42 ∧ r.1.str = cstring_reset v.str ∧ r.1.slen = cstring_reset v.slen))
      ∧ (¬ v.str.size ≥ toSizeT v.len → r.1.slen = v.slen ∧ r.2 = false) := by
  revert r
  suffices hs : props_body v c ≠ .error .fuel ∧ ∀ r, props_body v c = .ok r →
      r.1.len ≤ INT_MAX
      ∧ (v.str.size ≥ toSizeT v.len →
          (r.1.str = v.str ∧ r.1.len = v.len ∧ r.2 = false)
            ∨ (c = 42 ∧ r.1.str = cstring_reset v.str ∧ r.1.slen = cstring_reset v.slen))
      ∧ (¬ v.str.size ≥ toSizeT v.len → r.1.slen = v.slen ∧ r.2 = false) from hs.2
  unfold props_body
  split
  · rename_i hc
    simp only [Bool.and_eq_true, beq_iff_eq, decide_eq_true_eq] at hc
    refine bind_spec _ _ _ (print_property_spec v).1 (fun v1 h1 => ?_)
    obtain ⟨-, -, e3, e4, -⟩ := (print_property_spec v).2 v1 h1
    refine bind_spec _ _ _ (atoi_ne_fuel _) (fun len hlen => ?_)
    have hlen2 := atoi_range _ _ hlen
    refine bind_spec _ _ _ (rd_ne_fuel _) (fun p _ => ?_)
    split
    · refine bind_spec _ _ _ (int_ne_fuel _) (fun p2 _ => ?_)
      refine pure_spec _ _ ?_
      simp only
      exact ⟨hlen2, fun _ => Or.inr ⟨hc.1, rfl, rfl⟩, fun hn => absurd hc.2 hn⟩
    · refine bind_spec _ _ _ (int_ne_fuel _) (fun p2 _ => ?_)
      refine pure_spec _ _ ?_
      simp only
      exact ⟨hlen2, fun _ => Or.inr ⟨hc.1, rfl, rfl⟩, fun hn => absurd hc.2 hn⟩
  · split
    · rename_i hc
      refine bind_spec _ _ _ (cstring_expand_ne_fuel _ _) (fun s2 _ => ?_)
      refine pure_spec _ _ ?_
      simp only
      exact ⟨hl, fun _ => Or.inl (by simp), fun hn => absurd hc hn⟩
    · rename_i hc
      split
      · refine bind_spec _ _ _ (cstring_expand_ne_fuel _ _) (fun s2 _ => ?_)
        have hu := utf8_loop_spec 8 1 c { v with str := s2 } (by decide)
        refine bind_spec _ _ _ hu.1 (fun w hw => ?_)
        obtain ⟨-, -, h3, -⟩ := hu.2 w hw
        have h4 := utf8_loop_len_int 9 1 c { v with str := s2 } w hl hw
        refine pure_spec _ _ ?_
        simp only
        exact ⟨h4, fun hp => absurd hp hc, fun _ => by simp [h3]⟩
      · refine bind_spec _ _ _ (cstring_expand_ne_fuel _ _) (fun s2 _ => ?_)
        refine pure_spec _ _ ?_
        simp only
        exact ⟨hl, fun hp => absurd hp hc, fun _ => by simp⟩

theorem toSizeT_zero : toSizeT 0 = 0 := by decide

/-- At every head of the byte loop a length prefix that is not empty comes with field
content that has reached `len`, and `len` is an `int`. -/
theorem Head_inv (input : List Nat) (v : Vars) (h : Head input v) :
    (v.slen.size > 0 → v.str.size ≥ toSizeT v.len) ∧ v.len ≤ INT_MAX := by
  induction h with
  | first rest i v e _ _ _ _ =>
    simp only [toSizeT_zero]
    exact ⟨fun _ => Nat.zero_le _, by decide⟩
  | pass v b rest w _ hin hb ih =>
    obtain ⟨h1, h2, h3⟩ := props_body_accum { v with input := rest } (b : Int) ih.2 _ hb
    simp only at h1 h2 h3
    refine ⟨fun hs => ?_, h1⟩
    by_cases hc : v.str.size ≥ toSizeT v.len
    · rcases h2 hc with ⟨e1, e2, -⟩ | ⟨-, -, e2⟩
      · rw [e1, e2]; exact hc
      · rw [e2] at hs
        simp [cstring_reset] at hs
    · have e := (h3 hc).1
      rw [e] at hs
      exact absurd (ih.1 hs) hc
  | afterBreak v b rest w u e _ _ _ _ _ _ _ =>
    simp only [toSizeT_zero]
    exact ⟨fun _ => Nat.zero_le _, by decide⟩
  | afterEOF v u e _ _ _ _ _ _ =>
    simp only [toSizeT_zero]
    exact ⟨fun _ => Nat.zero_le _, by decide⟩

/-! ## The start of a group -/

/-- A significant delimiter while `props` is zero: a new group starts. -/
theorem props_body_group (rest : List Nat) (out : List Printf)
    (str slen : cstring_t) (len : Int) (ext : Option Int) (cs cl : List Nat)
    (hsz : str.size ≥ toSizeT len) (hs : str.Holds cs) (hl : slen.Holds cl)
    (hln : slen.text ≠ none) (hr1 : INT_MIN ≤ parseInt cl) (hr2 : parseInt cl ≤ INT_MAX)
    (hp2 : INT_MIN ≤ (parseInt cl + 1) * 2) (hp3 : (parseInt cl + 1) * 2 ≤ INT_MAX) :
    props_body ⟨rest, out, str, slen, len, some 0, ext⟩ 42
        = .ok (⟨skip_loop rest, out ++ [delimiterCall 0 cs],
                cstring_init, cstring_init, parseInt cl, some ((parseInt cl + 1) * 2), ext⟩,
               true) := by
  have ha : atoi slen.text = .ok (parseInt cl) := by
    simp [atoi, Holds_cstr slen cl hl hln, int, hr1, hr2, bind, Except.bind]
  have hi : int ((parseInt cl + 1) * 2) = .ok ((parseInt cl + 1) * 2) := by simp [int, hp2, hp3]
  have hcond : (((42 : Int) == 42) && decide (str.size ≥ toSizeT len)) = true := by
    simp [hsz]
  unfold props_body
  simp only [hcond, if_true]
  by_cases hc : cs = []
  · have h0 : ¬ (str.size > 0) := by rw [hs.1, hc]; simp
    simp [print_property, h0, ha, hc, hi, rd, cstring_reset, cstring_init, delimiterCall,
      bind, Except.bind, pure, Except.pure]
  · have h0 : str.size > 0 := by
      rw [hs.1]; exact List.length_pos.mpr hc
    have ht := Holds_cstr str cs hs (Holds_text str cs hs hc)
    simp [print_property, h0, ha, hc, hi, rd, ht, print_field, cstring_reset, cstring_init,
      delimiterCall, bind, Except.bind, pure, Except.pure]

theorem skip_loop_delimiter (pre tl : List Nat) (h : 42 ∉ pre) :
    skip_loop (pre ++ 42 :: tl) = tl := by
  induction pre with
  | nil => simp [skip_loop]
  | cons b t ih =>
    have hb : b ≠ 42 := fun hb => h (by simp [hb])
    have hb2 : ((b : Int) != 42) = true := by simp; omega
    have hb3 : ((b : Int) != EOF) = true := by simp [EOF]
    simp only [List.cons_append, skip_loop, hb2, hb3, Bool.and_self, if_true]
    exact ih (fun ht => h (by simp [ht]))

theorem skip_loop_eof (pre : List Nat) (h : 42 ∉ pre) : skip_loop pre = [] := by
  induction pre with
  | nil => simp [skip_loop]
  | cons b t ih =>
    have hb : b ≠ 42 := fun hb => h (by simp [hb])
    have hb2 : ((b : Int) != 42) = true := by simp; omega
    have hb3 : ((b : Int) != EOF) = true := by simp [EOF]
    simp only [skip_loop, hb2, hb3, Bool.and_self, if_true]
    exact ih (fun ht => h (by simp [ht]))

/-- A pass of `while (extends > 0)` is its byte loop, begun with `len = 0`, and the
statements after it. -/
theorem extends_body_eq (v : Vars) :
    extends_body v = (props_loop (v.input.length + 1) { v with len := 0 }) >>= group_end := by
  simp only [extends_body, group_end, bind, Except.bind]

/-- The statements after the byte loop when `str` is empty. -/
theorem group_end_empty (inp : List Nat) (out : List Printf) (slen : cstring_t)
    (len e : Int) (props : Option Int) (he1 : INT_MIN < e) (he2 : e ≤ INT_MAX) :
    group_end ⟨inp, out, cstring_init, slen, len, props, some e⟩
      = .ok ⟨inp, out, cstring_init, slen, len, props, some (e - 1)⟩ := by
  have hi : int (e - 1) = .ok (e - 1) := by
    have h1 : INT_MIN ≤ e - 1 := by omega
    have h2 : e - 1 ≤ INT_MAX := by omega
    simp [int, h1, h2]
  simp [group_end, print_last, cstring_init, rd, hi, bind, Except.bind, pure, Except.pure]

/-! ## The claims -/

/-- C1: an input whose first byte is not `@` (the empty input too) makes `main`
end with exit status 1, the "not a siebel message" exit, with nothing written to
`stdout`; an input whose first byte is `@` never ends that way: a run of it that
ends has exit status 0. -/
theorem C1_not_a_siebel_message (input : List Nat) :
    (input.head? ≠ some 64 → main input = .ok ⟨1, []⟩)
      ∧ (input.head? = some 64 → ∀ e, main input = .ok e → e.status = 0) := by
  cases input with
  | nil => simp [main, fgetc, EOF]
  | cons b rest =>
    constructor
    · intro h
      have hb : ((b : Int) == 64) = false := by
        have : b ≠ 64 := fun hb => h (by simp [hb])
        simp; omega
      simp [main, fgetc, hb]
    · intro h e he
      have hb : b = 64 := by simpa using h
      subst hb
      simp only [main, fgetc, Nat.cast_ofNat, beq_self_eq_true, if_true, bind, Except.bind] at he
      cases hf : flags_loop rest 0 (Vars.init rest) with
      | error f => simp [hf] at he
      | ok r =>
        simp only [hf] at he
        cases hx : extends_loop (r.2.extends_.getD 0).toNat r.2 with
        | error f => simp [hx] at he
        | ok v =>
          simp only [hx, pure, Except.pure, Except.ok.injEq] at he
          rw [← he]

/-- C2 fails as stated: the pair whose name is `2^31` bytes `a` and whose value is
empty is among the lists the claim speaks of (`N = 1`), and on its message the
length prefix `2147483648` makes `atoi` overflow: the run is undefined and does not
write the claimed bytes. -/
theorem C2_counterexample :
    main (message [(List.replicate 2147483648 97, [])]) = .error .overflow
      ∧ ¬ ∃ e, main (message [(List.replicate 2147483648 97, [])]) = .ok e
          ∧ stdout e.out = 10 :: expected [(List.replicate 2147483648 97, [])] := by
  have h := main_long_name (List.replicate 2147483648 97) []
    (by rw [List.length_replicate]; decide)
  refine ⟨h, ?_⟩
  rintro ⟨e, he, -⟩
  rw [h] at he
  cases he

/-- C2, amended: for `N ≥ 1` pairs with `2 * N` in the range of `int`, names and
values of bytes `0x01 .. 0x7F` (a `*` or a digit may be among them), every name
non-empty and every name and value of at most `INT_MAX` bytes, the run on the
message `@0*0*` `dec N` `*0*0*0*` followed by the fields ends with status 0 and has
written a newline, then `k: v` and a newline for every pair but the last, then
`k: ` for the last and, when its value is not empty, that value and a newline. -/
theorem C2_single_group_output (ps : List (List Nat × List Nat))
    (hN : 1 ≤ ps.length) (h2N : 2 * (ps.length : Int) ≤ INT_MAX)
    (hps : ∀ p ∈ ps, Plain p.1 ∧ Plain p.2) (hk : ∀ p ∈ ps, p.1 ≠ []) :
    ∃ e, main (message ps) = .ok e ∧ e.status = 0 ∧ stdout e.out = 10 :: expected ps := by
  refine ⟨_, main_message ps hps h2N, rfl, ?_⟩
  have hne : ps ≠ [] := by
    intro h; rw [h] at hN; simp at hN
  simp [stdout_groupCalls ps [] hk, hne]

theorem C2_single_group_output_witness :
    ∃ e, main (message [(bytes "a*1", bytes "x"), (bytes "b", [])]) = .ok e ∧ e.status = 0
      ∧ stdout e.out = 10 :: expected [(bytes "a*1", bytes "x"), (bytes "b", [])] :=
  C2_single_group_output [(bytes "a*1", bytes "x"), (bytes "b", [])]
    (by decide) (by decide) (by decide) (by decide)

/-- C3 fails as stated: the run on the sample message (`N = 34`), with or without
the backtick that follows it in the comment of `smp.c`, writes 35 lines, an empty one
and then one line `name: value` for each of the 34 pairs; no name stands on a line
of its own, so bare names and `name: value` lines do not alternate. -/
theorem C3_counterexample :
    ∃ e, main sample = .ok e
      ∧ main (sample ++ [96]) = .ok e
      ∧ lines (stdout e.out) = [] :: samplePairs.map pairLine
      ∧ (lines (stdout e.out)).length = 35
      ∧ ∀ p ∈ samplePairs, p.1 ∉ lines (stdout e.out) := by
  have hs : sample = message samplePairs := by decide
  have he := main_message samplePairs (by decide) (by decide)
  have hl : lines (stdout (groupCalls [] samplePairs ++ eofCalls 0 (lastField [] samplePairs)))
      = [] :: samplePairs.map pairLine := by decide
  refine ⟨_, by rw [hs]; exact he, main_sample_backtick, hl, ?_, ?_⟩
  · rw [hl]; rfl
  · rw [hl]; decide

/-- C3, amended: for the message of one group of `N ≥ 1` pairs (`2 * N` in the range
of `int`; names non-empty; names and values of bytes `0x01 .. 0x7F` other than the
newline, at most `INT_MAX` of them), the run writes an empty line and then exactly
`N` lines, the line `name: value` of each pair in the order of the message. The
sample message of `smp.c` is such a message, of 34 pairs; its header sets
`props = 68` and `extends = 1`, and the backtick that follows it in the comment
changes nothing of what is written. -/
theorem C3_one_line_per_pair (ps : List (List Nat × List Nat))
    (hN : 1 ≤ ps.length) (h2N : 2 * (ps.length : Int) ≤ INT_MAX)
    (hps : ∀ p ∈ ps, Plain p.1 ∧ Plain p.2) (hk : ∀ p ∈ ps, p.1 ≠ [])
    (hnl : ∀ p ∈ ps, 10 ∉ p.1 ∧ 10 ∉ p.2) :
    (∃ e, main (message ps) = .ok e
        ∧ lines (stdout e.out) = [] :: ps.map pairLine
        ∧ (lines (stdout e.out)).length = ps.length + 1)
      ∧ sample = message samplePairs
      ∧ samplePairs.length = 34
      ∧ flags_loop sample.tail 0 (Vars.init sample.tail)
          = .ok (6, ⟨encPairs samplePairs, [], cstring_init, cstring_init, 0, some 68, some 1⟩)
      ∧ ∃ e, main sample = .ok e ∧ main (sample ++ [96]) = .ok e
          ∧ lines (stdout e.out) = [] :: samplePairs.map pairLine := by
  have hs : sample = message samplePairs := by decide
  refine ⟨?_, hs, rfl, by decide, ?_⟩
  · obtain ⟨e, he, hl⟩ := main_message_lines ps hN h2N hps hk hnl
    exact ⟨e, he, hl, by rw [hl]; simp⟩
  · have he := main_message samplePairs (by decide) (by decide)
    exact ⟨_, by rw [hs]; exact he, main_sample_backtick, by decide⟩

theorem C3_one_line_per_pair_witness :
    (∃ e, main (message [(bytes "Key1", bytes "Value1"), (bytes "Key2", [])]) = .ok e
        ∧ lines (stdout e.out)
          = [] :: [(bytes "Key1", bytes "Value1"), (bytes "Key2", [])].map pairLine
        ∧ (lines (stdout e.out)).length
          = [(bytes "Key1", bytes "Value1"), (bytes "Key2", [])].length + 1)
      ∧ sample = message samplePairs
      ∧ samplePairs.length = 34
      ∧ flags_loop sample.tail 0 (Vars.init sample.tail)
          = .ok (6, ⟨encPairs samplePairs, [], cstring_init, cstring_init, 0, some 68, some 1⟩)
      ∧ ∃ e, main sample = .ok e ∧ main (sample ++ [96]) = .ok e
          ∧ lines (stdout e.out) = [] :: samplePairs.map pairLine :=
  C3_one_line_per_pair [(bytes "Key1", bytes "Value1"), (bytes "Key2", [])]
    (by decide) (by decide) (by decide) (by decide) (by decide)

/-- C4 fails as stated: on the message of the one pair `k`, `v` the name `k` is
printed with `props = 1`, followed by `: `, and the value `v` with `props = 0`,
followed by a newline; the name is at no time printed with an even `props`, nor the
value with an odd one. -/
theorem C4_counterexample :
    message [(bytes "k", bytes "v")] = bytes "@0*0*1*0*0*0*1*k1*v"
      ∧ main (bytes "@0*0*1*0*0*0*1*k1*v")
        = .ok ⟨0, [.newline, .field 1 (bytes "k"), .field 0 (bytes "v")]⟩
      ∧ (¬ ∃ q : Int, q % 2 = 0
          ∧ Printf.field q (bytes "k") ∈ [.newline, .field 1 (bytes "k"), .field 0 (bytes "v")])
      ∧ (¬ ∃ q : Int, q % 2 = 1
          ∧ Printf.field q (bytes "v") ∈ [.newline, .field 1 (bytes "k"), .field 0 (bytes "v")])
      ∧ stdout [.newline, .field 1 (bytes "k"), .field 0 (bytes "v")] = bytes "\nk: v\n" := by
  refine ⟨by decide, by decide, ?_, ?_, by decide⟩
  · rintro ⟨q, hq, hm⟩
    have hkv : bytes "k" ≠ bytes "v" := by decide
    simp [hkv] at hm
    subst hm
    simp at hq
  · rintro ⟨q, hq, hm⟩
    have hkv : bytes "v" ≠ bytes "k" := by decide
    simp [hkv] at hm
    subst hm
    simp at hq

/-- C4, amended: for the message of one group of `N ≥ 1` pairs (`2 * N` in the range
of `int`; names and values non-empty, of bytes `0x01 .. 0x7F`, at most `INT_MAX` of
them) the calls of `printf` are: a newline, then for every pair in order its name
with an odd value of `props`, which prints the name followed by `: `, and its value
with an even value of `props`, which prints the value followed by a newline. -/
theorem C4_names_odd_values_even (ps : List (List Nat × List Nat))
    (hN : 1 ≤ ps.length) (h2N : 2 * (ps.length : Int) ≤ INT_MAX)
    (hps : ∀ p ∈ ps, Plain p.1 ∧ Plain p.2) (hk : ∀ p ∈ ps, p.1 ≠ [] ∧ p.2 ≠ []) :
    ∃ e, main (message ps) = .ok e ∧ e.out = Printf.newline :: pairCalls ps
      ∧ (∀ p ∈ ps, (∃ q : Int, q % 2 = 1 ∧ Printf.field q p.1 ∈ e.out)
          ∧ (∃ q : Int, q % 2 = 0 ∧ Printf.field q p.2 ∈ e.out))
      ∧ (∀ (q : Int) (t : List Nat), q % 2 = 1 → (Printf.field q t).render = t ++ [58, 32])
      ∧ (∀ (q : Int) (t : List Nat), q % 2 = 0 → (Printf.field q t).render = t ++ [10]) := by
  have hne : ps ≠ [] := by
    intro h; rw [h] at hN; simp at hN
  refine ⟨_, main_message ps hps h2N, ?_, ?_, ?_, ?_⟩
  · simp [groupCalls_pairCalls ps [] hk, hne, delimiterCall]
  · intro p hp
    obtain ⟨⟨q1, h1, m1⟩, ⟨q2, h2, m2⟩⟩ := mem_pairCalls ps p hp
    simp only [groupCalls_pairCalls ps [] hk, hne, if_false]
    exact ⟨⟨q1, h1, List.mem_cons_of_mem _ m1⟩, ⟨q2, h2, List.mem_cons_of_mem _ m2⟩⟩
  · intro q t hq
    simp [Printf.render, hq]
  · intro q t hq
    simp [Printf.render, hq]

theorem C4_names_odd_values_even_witness :
    ∃ e, main (message [(bytes "k", bytes "v"), (bytes "a*", bytes "b")]) = .ok e
      ∧ e.out = Printf.newline :: pairCalls [(bytes "k", bytes "v"), (bytes "a*", bytes "b")]
      ∧ (∀ p ∈ [(bytes "k", bytes "v"), (bytes "a*", bytes "b")],
          (∃ q : Int, q % 2 = 1 ∧ Printf.field q p.1 ∈ e.out)
          ∧ (∃ q : Int, q % 2 = 0 ∧ Printf.field q p.2 ∈ e.out))
      ∧ (∀ (q : Int) (t : List Nat), q % 2 = 1 → (Printf.field q t).render = t ++ [58, 32])
      ∧ (∀ (q : Int) (t : List Nat), q % 2 = 0 → (Printf.field q t).render = t ++ [10]) :=
  C4_names_odd_values_even [(bytes "k", bytes "v"), (bytes "a*", bytes "b")]
    (by decide) (by decide) (by decide) (by decide)

/-- C5: after `@`, a header of six tokens without `*`, the third and the fourth
non-empty strings of decimal digits whose doubled and incremented values fit an
`int`, leaves the header loop at `i = 6` with `props = 2 * value t3`,
`extends = value t4 + 1`, both strings empty and exactly the bytes after the sixth
`*` unread; the run of `main` goes on from that state, whatever `t1`, `t2`, `t5` and
`t6` are. -/
theorem C5_header_phase (t1 t2 t3 t4 t5 t6 rest : List Nat)
    (h1 : 42 ∉ t1) (h2 : 42 ∉ t2) (h5 : 42 ∉ t5) (h6 : 42 ∉ t6)
    (d3 : Numeral t3) (d4 : Numeral t4)
    (r3 : 2 * (value t3 : Int) ≤ INT_MAX) (r4 : (value t4 : Int) + 1 ≤ INT_MAX) :
    flags_loop (header t1 t2 t3 t4 t5 t6 ++ rest) 0
        (Vars.init (header t1 t2 t3 t4 t5 t6 ++ rest))
      = .ok (6, ⟨rest, [], cstring_init, cstring_init, 0,
          some (2 * (value t3 : Int)), some ((value t4 : Int) + 1)⟩)
    ∧ main (64 :: (header t1 t2 t3 t4 t5 t6 ++ rest))
      = (extends_loop (value t4 + 1)
          ⟨rest, [], cstring_init, cstring_init, 0,
            some (2 * (value t3 : Int)), some ((value t4 : Int) + 1)⟩).map
          (fun v => ⟨0, v.out⟩) := by
  have hh := flags_loop_header t1 t2 t3 t4 t5 t6 rest (header t1 t2 t3 t4 t5 t6 ++ rest)
    h1 h2 h5 h6 d3 d4 r3 r4
  refine ⟨hh, ?_⟩
  have hfg : ∀ l : List Nat, fgetc (64 :: l) = (64, l) := fun l => rfl
  have ht : ((some ((value t4 : Int) + 1)).getD 0).toNat = value t4 + 1 := by
    simp only [Option.getD_some]
    omega
  simp only [main, hfg, hh, bind, Except.bind, beq_self_eq_true, if_true, ht]
  cases extends_loop (value t4 + 1) _ <;> simp [Except.map, pure, Except.pure]

theorem C5_header_phase_witness :
    flags_loop (header [48] [48] [51, 52] [48] [48] [48] ++ [56, 42]) 0
        (Vars.init (header [48] [48] [51, 52] [48] [48] [48] ++ [56, 42]))
      = .ok (6, ⟨[56, 42], [], cstring_init, cstring_init, 0,
          some (2 * (value [51, 52] : Int)), some ((value [48] : Int) + 1)⟩)
    ∧ main (64 :: (header [48] [48] [51, 52] [48] [48] [48] ++ [56, 42]))
      = (extends_loop (value [48] + 1)
          ⟨[56, 42], [], cstring_init, cstring_init, 0,
            some (2 * (value [51, 52] : Int)), some ((value [48] : Int) + 1)⟩).map
          (fun v => ⟨0, v.out⟩) :=
  C5_header_phase [48] [48] [51, 52] [48] [48] [48] [56, 42]
    (by decide) (by decide) (by decide) (by decide)
    ⟨by decide, by decide⟩ ⟨by decide, by decide⟩
    (by simp [value, Nat.ofDigits, INT_MAX]) (by simp [value, Nat.ofDigits, INT_MAX])

/-- C6: in a state of the group loop whose `str` holds fewer bytes than `len` (an
`int`), the body of the byte loop, given the byte `*`, appends it to `str`, does not
leave the loop and changes nothing else: `len`, `props`, `extends`, `slen`, the
output and the input stay as they are. Hence a value with a `*` inside its declared
length is printed as it is: the message of the one pair `k`, `val` (bytes
`0x01 .. 0x7F`, a `*` among them or not, `k` not empty, at most `INT_MAX` bytes each)
makes the run write a newline, `k`, `: `, `val` and, if `val` is not empty, a newline. -/
theorem C6_delimiter_inside_field (v : Vars) (cs k val : List Nat)
    (hs : v.str.Holds cs) (hlt : (v.str.size : Int) < v.len) (hmax : v.len ≤ INT_MAX)
    (hk : Plain k) (hk0 : k ≠ []) (hv : Plain val) :
    (∃ str2, props_body v 42 = .ok ({ v with str := str2 }, false)
        ∧ str2.Holds (cs ++ [42]) ∧ str2.size = v.str.size + 1)
      ∧ ∃ e, main (message [(k, val)]) = .ok e
          ∧ stdout e.out = 10 :: (k ++ ([58, 32] ++ (if val = [] then [] else val ++ [10]))) := by
  constructor
  · obtain ⟨inp, out, str, slen, len, props, ext⟩ := v
    simp only at hs hlt hmax
    have hsz : str.size < toSizeT len := by
      rw [toSizeT_int len (by omega) hmax]; omega
    obtain ⟨str2, e, h2, _⟩ := props_body_content 42 inp out str slen len props ext cs
      (by decide) hsz hs
    simp only [Nat.cast_ofNat] at e
    refine ⟨str2, e, by simpa using h2, ?_⟩
    rw [h2.1, hs.1]; simp
  · refine ⟨_, main_message [(k, val)] (by simpa using ⟨hk, hv⟩) (by simp [INT_MAX]), ?_⟩
    rw [stdout_groupCalls [(k, val)] [] (by simpa using hk0)]
    simp [expected]

theorem C6_delimiter_inside_field_witness :
    (∃ str2, props_body ⟨bytes "*b1*x", [.newline], cstring_init, cstring_init, 3, some 1, some 1⟩ 42
          = .ok ({ (⟨bytes "*b1*x", [.newline], cstring_init, cstring_init, 3, some 1, some 1⟩ : Vars)
                    with str := str2 }, false)
        ∧ str2.Holds ([] ++ [42]) ∧ str2.size = cstring_init.size + 1)
      ∧ ∃ e, main (message [(bytes "k", bytes "a*b")]) = .ok e
          ∧ stdout e.out = 10 :: (bytes "k" ++ ([58, 32]
              ++ (if bytes "a*b" = [] then [] else bytes "a*b" ++ [10]))) :=
  C6_delimiter_inside_field ⟨bytes "*b1*x", [.newline], cstring_init, cstring_init, 3, some 1, some 1⟩
    [] (bytes "k") (bytes "a*b") (by decide) (by decide) (by decide) (by decide) (by decide)
    (by decide)

/-- C7 fails on the code: a value that is the three byte character `E2 82 AC`,
declared with length 1, is cut after its second byte. The loop
`for(i = 1; i <= length_utf8(c); i++)` reads one byte, then tests `i = 2` against the
length of the continuation byte just read, which is 1, and stops; the third byte
goes to the length prefix and is never printed. -/
theorem C7_three_byte_character_cut :
    main (bytes "@0*0*1*0*0*0*1*k1*" ++ [0xE2, 0x82, 0xAC])
      = .ok ⟨0, [.newline, .field 1 (bytes "k"), .field 0 [0xE2, 0x82]]⟩
    ∧ stdout [.newline, .field 1 (bytes "k"), .field 0 [0xE2, 0x82]]
      = bytes "\nk: " ++ [0xE2, 0x82, 10] :=
  ⟨by decide, by decide⟩

/-- C8 fails on the code: with `extends = 2` the stream `@0*0*1*1*0*0*1*k1*v` ends
while `str` holds `v`; `v` is printed after the byte loop of the first pass of
`while (extends > 0)` and, `str` not being reset, once more after that of the
second pass. -/
theorem C8_last_field_printed_twice :
    main (bytes "@0*0*1*1*0*0*1*k1*v")
      = .ok ⟨0, [.newline, .field 1 (bytes "k"), .field 0 (bytes "v"), .field 0 (bytes "v")]⟩
    ∧ stdout [.newline, .field 1 (bytes "k"), .field 0 (bytes "v"), .field 0 (bytes "v")]
      = bytes "\nk: v\nv\n" :=
  ⟨by decide, by decide⟩

/-- C9: in a state of the group loop whose `str` is empty, when the byte `*` is read
and is significant (`str->size >= len`), the print statement of the branch makes the
one call `printf("\n")`, one newline byte, whatever `props` is, and nothing else is
written in that pass of the loop: any state the body ends in has that one call more.
The body does end in a state when `slen` holds a string whose number `atoi` can
return and `props` is assigned and can be decremented or, being 0, set anew. -/
theorem C9_empty_field_blank_line (v : Vars) (hsz : v.str.size = 0)
    (hsig : v.str.size ≥ toSizeT v.len) :
    print_property v = .ok { v with out := v.out ++ [Printf.newline] }
      ∧ stdout (v.out ++ [Printf.newline]) = stdout v.out ++ [10]
      ∧ (∀ r, props_body v 42 = .ok r → r.1.out = v.out ++ [Printf.newline])
      ∧ (∀ cl p, v.slen.Holds cl → v.slen.text ≠ none → v.props = some p
          → INT_MIN ≤ parseInt cl → parseInt cl ≤ INT_MAX
          → (p = 0 → INT_MIN ≤ (parseInt cl + 1) * 2 ∧ (parseInt cl + 1) * 2 ≤ INT_MAX)
          → INT_MIN < p → p ≤ INT_MAX
          → ∃ r, props_body v 42 = .ok r) := by
  have h0 : ¬ (v.str.size > 0) := by omega
  have hp : print_property v = .ok { v with out := v.out ++ [Printf.newline] } := by
    simp [print_property, h0, pure, Except.pure]
  have hcond : (((42 : Int) == 42) && decide (v.str.size ≥ toSizeT v.len)) = true := by
    simp [hsig]
  refine ⟨hp, by simp [stdout, Printf.render], ?_, ?_⟩
  · intro r hr
    unfold props_body at hr
    simp only [hcond, if_true, hp, bind, Except.bind] at hr
    cases ha : atoi v.slen.text with
    | error f => simp [ha] at hr
    | ok n =>
      simp only [ha] at hr
      cases hpr : v.props with
      | none => simp [hpr, rd] at hr
      | some p =>
        simp only [hpr, rd] at hr
        by_cases hp0 : (p == 0) = true
        · simp only [hp0, if_true] at hr
          cases hi : int ((n + 1) * 2) with
          | error f => simp [hi] at hr
          | ok q =>
            simp only [hi, pure, Except.pure, Except.ok.injEq] at hr
            rw [← hr]
        · simp only [hp0, Bool.false_eq_true, if_false] at hr
          cases hi : int (p - 1) with
          | error f => simp [hi] at hr
          | ok q =>
            simp only [hi, pure, Except.pure, Except.ok.injEq] at hr
            rw [← hr]
  · intro cl p hl hn hpr h1 h2 h0 h3 h4
    have hI : INT_MIN = -2147483648 := rfl
    have hM : INT_MAX = 2147483647 := rfl
    have ha : atoi v.slen.text = .ok (parseInt cl) := by
      simp [atoi, Holds_cstr v.slen cl hl hn, int, h1, h2, bind, Except.bind]
    unfold props_body
    simp only [hcond, if_true, hp, bind, Except.bind, ha, hpr, rd]
    by_cases hp0 : (p == 0) = true
    · have hi : int ((parseInt cl + 1) * 2) = .ok ((parseInt cl + 1) * 2) := by
        have := h0 (by simpa using hp0)
        simp [int, this.1, this.2]
      simp [hp0, hi, pure, Except.pure]
    · have hi : int (p - 1) = .ok (p - 1) := by
        have h5 : INT_MIN ≤ p - 1 := by omega
        have h6 : p - 1 ≤ INT_MAX := by omega
        simp [int, h5, h6]
      simp [hp0, hi, pure, Except.pure]

theorem C9_empty_field_blank_line_witness :
    print_property ⟨bytes "ab", [], cstring_init,
        ⟨some ([some 50, some 0] ++ List.replicate 8 none), 1, 10⟩, 0, some 3, some 1⟩
      = .ok { (⟨bytes "ab", [], cstring_init,
          ⟨some ([some 50, some 0] ++ List.replicate 8 none), 1, 10⟩, 0, some 3, some 1⟩ : Vars)
          with out := [] ++ [Printf.newline] }
      ∧ stdout ([] ++ [Printf.newline]) = stdout [] ++ [10]
      ∧ (∀ r, props_body ⟨bytes "ab", [], cstring_init,
            ⟨some ([some 50, some 0] ++ List.replicate 8 none), 1, 10⟩, 0, some 3, some 1⟩ 42
          = .ok r → r.1.out = [] ++ [Printf.newline])
      ∧ (∀ cl p, cstring_t.Holds ⟨some ([some 50, some 0] ++ List.replicate 8 none), 1, 10⟩ cl
          → (some ([some 50, some 0] ++ List.replicate 8 none) : Option Block) ≠ none
          → (some 3 : Option Int) = some p
          → INT_MIN ≤ parseInt cl → parseInt cl ≤ INT_MAX
          → (p = 0 → INT_MIN ≤ (parseInt cl + 1) * 2 ∧ (parseInt cl + 1) * 2 ≤ INT_MAX)
          → INT_MIN < p → p ≤ INT_MAX
          → ∃ r, props_body ⟨bytes "ab", [], cstring_init,
              ⟨some ([some 50, some 0] ++ List.replicate 8 none), 1, 10⟩, 0, some 3, some 1⟩ 42
            = .ok r) :=
  C9_empty_field_blank_line ⟨bytes "ab", [], cstring_init,
    ⟨some ([some 50, some 0] ++ List.replicate 8 none), 1, 10⟩, 0, some 3, some 1⟩
    (by decide) (by decide)

/-- C10 fails as stated: the run on `@0*0*2*0*0*0*8*Key10*Value14*Key21*B` writes
two lines, an empty one and `Key10*Va: `; it does not write four lines, and none of
`Key1`, `Key2` and `B` is a line of its output. -/
theorem C10_counterexample :
    ∃ e, main (bytes "@0*0*2*0*0*0*8*Key10*Value14*Key21*B") = .ok e
      ∧ lines (stdout e.out) = [[], bytes "Key10*Va: "]
      ∧ (lines (stdout e.out)).length ≠ 4
      ∧ bytes "Key1" ∉ lines (stdout e.out)
      ∧ bytes "Key2" ∉ lines (stdout e.out)
      ∧ bytes "B" ∉ lines (stdout e.out) :=
  ⟨⟨0, [.newline, .field 3 (bytes "Key10*Va"), .newline]⟩, by decide, by decide, by decide,
    by decide, by decide, by decide⟩

/-- C10, amended: on `@0*0*2*0*0*0*8*Key10*Value14*Key21*B` the header loop sets
`props = 4` and `extends = 1` and leaves `8*Key10*Value14*Key21*B` unread; the run
then prints a newline, the eight bytes `Key10*Va` the first length prefix frames,
followed by `: ` (`props` is 3), and a newline: the bytes `\nKey10*Va: \n`. -/
theorem C10_scenario :
    flags_loop (bytes "0*0*2*0*0*0*8*Key10*Value14*Key21*B") 0
        (Vars.init (bytes "0*0*2*0*0*0*8*Key10*Value14*Key21*B"))
      = .ok (6, ⟨bytes "8*Key10*Value14*Key21*B", [], cstring_init, cstring_init, 0,
          some 4, some 1⟩)
    ∧ main (bytes "@0*0*2*0*0*0*8*Key10*Value14*Key21*B")
      = .ok ⟨0, [.newline, .field 3 (bytes "Key10*Va"), .newline]⟩
    ∧ stdout [.newline, .field 3 (bytes "Key10*Va"), .newline] = bytes "\nKey10*Va: \n" :=
  ⟨by decide, by decide, by decide⟩

/-- C11 fails as stated for the byte 0: appended to the fresh buffer it leaves the
size at 0 and the string held empty, `size` being set to `strlen(text)`. -/
theorem C11_counterexample :
    ∃ s, cstring_expand cstring_init 0 = .ok s
      ∧ cstring_init.Holds [] ∧ s.Holds []
      ∧ s.size = cstring_init.size ∧ s.size ≠ cstring_init.size + 1
      ∧ cstr s.text = .ok [] ∧ ¬ s.Holds ([] ++ [0]) :=
  ⟨⟨some ([some 0, some 0] ++ List.replicate 8 none), 0, 10⟩, by decide, by decide, by decide,
    by decide, by decide, by decide, by decide⟩

/-- C11, amended: on a buffer that holds the bytes `c`, `cstring_expand` with a byte
`b` other than 0 gives a buffer that holds `c` followed by `b`, its size one more;
with the byte 0 it gives a buffer that still holds `c`, its size unchanged. Either
way the bytes held before are all there, in place. -/
theorem C11_append_byte (s : cstring_t) (c : List Nat) (b : Nat) (h : s.Holds c) :
    ∃ s2, cstring_expand s b = .ok s2
      ∧ (b ≠ 0 → s2.Holds (c ++ [b]) ∧ s2.size = s.size + 1)
      ∧ (b = 0 → s2.Holds c ∧ s2.size = s.size)
      ∧ (∃ t, cstr s2.text = .ok (c ++ t)) := by
  obtain ⟨s2, e, h2, hn⟩ := cstring_expand_holds s c b h
  refine ⟨s2, e, ?_, ?_, ?_⟩
  · intro hb
    simp only [hb, if_false] at h2
    exact ⟨h2, by rw [h2.1, h.1]; simp⟩
  · intro hb
    simp only [hb, if_true] at h2
    exact ⟨h2, by rw [h2.1, h.1]⟩
  · refine ⟨if b = 0 then [] else [b], ?_⟩
    rw [Holds_cstr s2 _ h2 hn]
    by_cases hb : b = 0 <;> simp [hb]

theorem C11_append_byte_witness :
    ∃ s2, cstring_expand ⟨some ([some 97, some 0] ++ List.replicate 8 none), 1, 10⟩ 0xFF = .ok s2
      ∧ (0xFF ≠ 0 → s2.Holds ([97] ++ [0xFF])
          ∧ s2.size = (⟨some ([some 97, some 0] ++ List.replicate 8 none), 1, 10⟩ : cstring_t).size + 1)
      ∧ (0xFF = 0 → s2.Holds [97]
          ∧ s2.size = (⟨some ([some 97, some 0] ++ List.replicate 8 none), 1, 10⟩ : cstring_t).size)
      ∧ (∃ t, cstr s2.text = .ok ([97] ++ t)) :=
  C11_append_byte ⟨some ([some 97, some 0] ++ List.replicate 8 none), 1, 10⟩ [97] 0xFF (by decide)

/-- C12 fails on the code. On the fresh buffer, which holds the empty string and has
`text == NULL`, `cstring_strip(self, 0, 0)` takes the first branch and writes
`text[0]`. And on the buffer that holds nine bytes in its block of ten,
`cstring_strip(self, 0, 2)` calls `memmove` for `size - pos = 9` bytes from
`&text[2]`: it reads `text[10]`, outside the block (the count leaves `len` out). -/
theorem C12_strip_null_and_over_read :
    cstring_init.Holds []
      ∧ cstring_strip cstring_init 0 0 = .error .nullPointer
      ∧ cstring_t.Holds ⟨some (List.replicate 9 (some 97) ++ [some 0]), 9, 10⟩
          (List.replicate 9 97)
      ∧ cstring_strip ⟨some (List.replicate 9 (some 97) ++ [some 0]), 9, 10⟩ 0 2
          = .error .outOfBounds :=
  ⟨by decide, by decide, by decide, by decide⟩

/-- C13 fails as stated for two kinds of state. On `@0*0*0*0*0*0**x*` the first head
of the byte loop has `props = 0`, `str` empty and `slen` never written; the byte
`*` read there is significant, and `len = atoi(slen->text)` is `atoi(NULL)`: no `len`
is parsed and the run ends there. On `@0*0*0*0*0*0*2147483647*x*` the delimiter is
read with `props = 0` and `slen` holding `2147483647`: `atoi` gives `INT_MAX`, and
`(len + 1) * 2` is no `int`, so `props` does not become that number. -/
theorem C13_counterexample :
    Head (bytes "@0*0*0*0*0*0**x*")
        ⟨bytes "*x*", [], cstring_init, cstring_init, 0, some 0, some 1⟩
      ∧ cstring_init.size ≥ toSizeT 0
      ∧ props_body ⟨bytes "x*", [], cstring_init, cstring_init, 0, some 0, some 1⟩ 42
          = .error .nullPointer
      ∧ main (bytes "@0*0*0*0*0*0**x*") = .error .nullPointer
      ∧ cstring_t.Holds ⟨some ((bytes "2147483647").map some ++ some 0 :: List.replicate 9 none),
          10, 20⟩ (bytes "2147483647")
      ∧ parseInt (bytes "2147483647") = INT_MAX
      ∧ ¬ ((INT_MAX + 1) * 2 ≤ INT_MAX)
      ∧ props_body ⟨bytes "x*", [], cstring_init,
            ⟨some ((bytes "2147483647").map some ++ some 0 :: List.replicate 9 none), 10, 20⟩,
            0, some 0, some 1⟩ 42
          = .error .overflow
      ∧ main (bytes "@0*0*0*0*0*0*2147483647*x*") = .error .overflow :=
  ⟨Head.first (bytes "0*0*0*0*0*0**x*") 6
      ⟨bytes "*x*", [], cstring_init, cstring_init, 0, some 0, some 1⟩ 1
      (by decide) (by decide) (by decide) (by decide),
    by decide, by decide, by decide, by decide, by decide, by decide, by decide, by decide⟩

/-- C13, amended: in a state of the group loop (`str` and `slen` hold strings,
`extends > 0`) in which the byte `*` is read and is significant, when `slen` has been
written since it was last emptied and the numbers involved (the number in `slen`,
`(len + 1) * 2` when `props` is 0, `props - 1` otherwise) are in the range of `int`:
if `props` is 0, the field in `str` is printed, `len` is the number
`atoi` reads from `slen`, `props` becomes `(len + 1) * 2`, the input up to and with
the next `*` (or up to its end) is skipped with nothing printed, the byte loop is
left with both strings empty, and the statements after it print nothing and take
one off `extends`; the next pass starts with `len = 0`. If `props` is not 0, it
is decremented by one, `extends` stays and the loop goes on. -/
theorem C13_group_start (rest : List Nat) (out : List Printf) (str slen : cstring_t)
    (len p e : Int) (cs cl : List Nat) (fuel : Nat)
    (hs : str.Holds cs) (hl : slen.Holds cl) (hln : slen.text ≠ none)
    (hsig : str.size ≥ toSizeT len)
    (hr1 : INT_MIN ≤ parseInt cl) (hr2 : parseInt cl ≤ INT_MAX)
    (hp0 : p = 0 → INT_MIN ≤ (parseInt cl + 1) * 2 ∧ (parseInt cl + 1) * 2 ≤ INT_MAX)
    (hp1 : INT_MIN < p) (hp2 : p ≤ INT_MAX) (he1 : 0 < e) (he2 : e ≤ INT_MAX) :
    (p = 0 →
        props_body ⟨rest, out, str, slen, len, some p, some e⟩ 42
          = .ok (⟨skip_loop rest, out ++ [delimiterCall 0 cs], cstring_init, cstring_init,
              parseInt cl, some ((parseInt cl + 1) * 2), some e⟩, true)
        ∧ props_loop (fuel + 1) ⟨42 :: rest, out, str, slen, len, some p, some e⟩
          = .ok ⟨skip_loop rest, out ++ [delimiterCall 0 cs], cstring_init, cstring_init,
              parseInt cl, some ((parseInt cl + 1) * 2), some e⟩
        ∧ group_end ⟨skip_loop rest, out ++ [delimiterCall 0 cs], cstring_init, cstring_init,
              parseInt cl, some ((parseInt cl + 1) * 2), some e⟩
          = .ok ⟨skip_loop rest, out ++ [delimiterCall 0 cs], cstring_init, cstring_init,
              parseInt cl, some ((parseInt cl + 1) * 2), some (e - 1)⟩)
      ∧ (p ≠ 0 →
        props_body ⟨rest, out, str, slen, len, some p, some e⟩ 42
          = .ok (⟨rest, out ++ [delimiterCall p cs], cstring_init, cstring_init,
              parseInt cl, some (p - 1), some e⟩, false))
      ∧ (∀ pre tl : List Nat, 42 ∉ pre →
          skip_loop (pre ++ 42 :: tl) = tl ∧ skip_loop pre = [])
      ∧ (∀ v : Vars, extends_body v
          = (props_loop (v.input.length + 1) { v with len := 0 }) >>= group_end) := by
  have hI : INT_MIN = -2147483648 := rfl
  refine ⟨?_, ?_, fun pre tl h => ⟨skip_loop_delimiter pre tl h, skip_loop_eof pre h⟩,
    extends_body_eq⟩
  · intro h0
    subst h0
    obtain ⟨h2, h3⟩ := hp0 rfl
    have hb := props_body_group rest out str slen len (some e) cs cl hsig hs hl hln hr1 hr2 h2 h3
    refine ⟨hb, ?_, group_end_empty _ _ _ _ _ _ (by omega) he2⟩
    have := props_loop_byte fuel 42 rest out str slen len (some 0) (some e)
    simp only [Nat.cast_ofNat] at this
    rw [this, hb]
    simp [bind, Except.bind, pure, Except.pure]
  · intro h0
    exact props_body_delimiter rest out str slen len p (some e) cs cl hsig hs hl hln hr1 hr2 h0
      (by omega) (by omega)

theorem C13_group_start_witness :
    ((0 : Int) = 0 →
        props_body ⟨bytes "x*1*k", [], cstring_init,
            ⟨some ([some 51, some 0] ++ List.replicate 8 none), 1, 10⟩, 0, some 0, some 2⟩ 42
          = .ok (⟨skip_loop (bytes "x*1*k"), [] ++ [delimiterCall 0 []], cstring_init,
              cstring_init, parseInt [51], some ((parseInt [51] + 1) * 2), some 2⟩, true)
        ∧ props_loop (7 + 1) ⟨42 :: bytes "x*1*k", [], cstring_init,
            ⟨some ([some 51, some 0] ++ List.replicate 8 none), 1, 10⟩, 0, some 0, some 2⟩
          = .ok ⟨skip_loop (bytes "x*1*k"), [] ++ [delimiterCall 0 []], cstring_init,
              cstring_init, parseInt [51], some ((parseInt [51] + 1) * 2), some 2⟩
        ∧ group_end ⟨skip_loop (bytes "x*1*k"), [] ++ [delimiterCall 0 []], cstring_init,
              cstring_init, parseInt [51], some ((parseInt [51] + 1) * 2), some 2⟩
          = .ok ⟨skip_loop (bytes "x*1*k"), [] ++ [delimiterCall 0 []], cstring_init,
              cstring_init, parseInt [51], some ((parseInt [51] + 1) * 2), some (2 - 1)⟩)
      ∧ ((0 : Int) ≠ 0 →
        props_body ⟨bytes "x*1*k", [], cstring_init,
            ⟨some ([some 51, some 0] ++ List.replicate 8 none), 1, 10⟩, 0, some 0, some 2⟩ 42
          = .ok (⟨bytes "x*1*k", [] ++ [delimiterCall 0 []], cstring_init, cstring_init,
              parseInt [51], some (0 - 1), some 2⟩, false))
      ∧ (∀ pre tl : List Nat, 42 ∉ pre →
          skip_loop (pre ++ 42 :: tl) = tl ∧ skip_loop pre = [])
      ∧ (∀ v : Vars, extends_body v
          = (props_loop (v.input.length + 1) { v with len := 0 }) >>= group_end) :=
  C13_group_start (bytes "x*1*k") [] cstring_init
    ⟨some ([some 51, some 0] ++ List.replicate 8 none), 1, 10⟩ 0 0 2 [] [51] 7
    (by decide) (by decide) (by decide) (by decide) (by decide) (by decide)
    (fun _ => ⟨by decide, by decide⟩) (by decide) (by decide) (by decide) (by decide)

/-- C14 fails on the code for the characters of three and four bytes: with `str`
empty and `len = 3`, the pass that reads the lead byte `E2` of `E2 82 AC` appends
`E2` and `82` only, leaves `AC` unread and makes `len` 4, not 5; likewise the pass
that reads `F0` of `F0 9F 98 80` appends `F0 9F`, leaves `98 80` unread and makes
`len` 5, not 7. The bound of `for(i = 1; i <= length_utf8(c); i++)` is taken anew
from the byte just read. -/
theorem C14_one_continuation_byte_only :
    props_body ⟨[0x82, 0xAC, 49, 42], [], cstring_init, cstring_init, 3, some 0, some 1⟩ 0xE2
      = .ok (⟨[0xAC, 49, 42], [],
          ⟨some ([some 0xE2, some 0x82, some 0] ++ List.replicate 7 none), 2, 10⟩,
          cstring_init, 4, some 0, some 1⟩, false)
    ∧ props_body ⟨[0x9F, 0x98, 0x80, 49, 42], [], cstring_init, cstring_init, 4, some 0, some 1⟩
        0xF0
      = .ok (⟨[0x98, 0x80, 49, 42], [],
          ⟨some ([some 0xF0, some 0x9F, some 0] ++ List.replicate 7 none), 2, 10⟩,
          cstring_init, 5, some 0, some 1⟩, false) :=
  ⟨by decide, by decide⟩

/-- C15: in the run of `main` on an input that starts with `'@'`, at every head of the
byte loop of the group loop: when the length prefix `slen` is not empty, the size of
the field content `str` is at least `len`, in the comparison `str->size >= len` of the
code as well as in the integers. So one accumulation is active at a time: the pass
that follows tests `str->size >= len`; when `slen` is not empty the test holds and no
byte is appended to `str` (`str` is left as it is, or emptied at a delimiter); when
the test fails `slen` is empty, is left as it is, and the loop goes on. -/
theorem C15_one_accumulation_active (input : List Nat) (v : Vars) (h : Head input v) :
    (v.slen.size > 0 → v.str.size ≥ toSizeT v.len)
      ∧ (v.slen.size > 0 → (v.str.size : Int) ≥ v.len)
      ∧ ∀ (b : Nat) (rest : List Nat) (w : Vars) (brk : Bool), v.input = b :: rest →
          props_body { v with input := rest } (b : Int) = .ok (w, brk) →
            (v.slen.size > 0 →
              v.str.size ≥ toSizeT v.len ∧ (w.str = v.str ∨ w.str = cstring_reset v.str))
            ∧ (¬ v.str.size ≥ toSizeT v.len →
                v.slen.size = 0 ∧ w.slen = v.slen ∧ brk = false) := by
  obtain ⟨h1, h2⟩ := Head_inv input v h
  refine ⟨h1, fun hs => ?_, fun b rest w brk _ hb => ?_⟩
  · have h3 := h1 hs
    by_cases h0 : 0 ≤ v.len
    · rw [toSizeT_int v.len h0 h2] at h3
      omega
    · omega
  · obtain ⟨-, a2, a3⟩ := props_body_accum { v with input := rest } (b : Int) h2 _ hb
    simp only at a2 a3
    refine ⟨fun hs => ⟨h1 hs, ?_⟩, fun hn => ⟨?_, (a3 hn).1, (a3 hn).2⟩⟩
    · rcases a2 (h1 hs) with ⟨e1, -, -⟩ | ⟨-, e1, -⟩
      · exact Or.inl e1
      · exact Or.inr e1
    · by_contra h0
      exact hn (h1 (Nat.pos_of_ne_zero h0))

theorem C15_one_accumulation_active_witness :
    Head (bytes "@0*0*1*0*0*0*1*k") headSample
      ∧ (headSample.slen.size > 0 → headSample.str.size ≥ toSizeT headSample.len)
      ∧ (headSample.slen.size > 0 → (headSample.str.size : Int) ≥ headSample.len)
      ∧ ∀ (b : Nat) (rest : List Nat) (w : Vars) (brk : Bool), headSample.input = b :: rest →
          props_body { headSample with input := rest } (b : Int) = .ok (w, brk) →
            (headSample.slen.size > 0 →
              headSample.str.size ≥ toSizeT headSample.len
                ∧ (w.str = headSample.str ∨ w.str = cstring_reset headSample.str))
            ∧ (¬ headSample.str.size ≥ toSizeT headSample.len →
                headSample.slen.size = 0 ∧ w.slen = headSample.slen ∧ brk = false) :=
  have h : Head (bytes "@0*0*1*0*0*0*1*k") headSample :=
    Head.pass ⟨bytes "1*k", [], cstring_init, cstring_init, 0, some 2, some 1⟩ 49 (bytes "*k")
      headSample
      (Head.first (bytes "0*0*1*0*0*0*1*k") 6
        ⟨bytes "1*k", [], cstring_init, cstring_init, 0, some 2, some 1⟩ 1
        (by decide) (by decide) (by decide) (by decide))
      (by decide) (by decide)
  ⟨h, C15_one_accumulation_active (bytes "@0*0*1*0*0*0*1*k") headSample h⟩

/-- C16 fails as stated: the fresh buffer has `alloc = 0` and `size = 0`, and so has
every buffer after `cstring_reset`; `alloc ≥ size + 1` does not hold for them. -/
theorem C16_counterexample :
    ¬ (cstring_init.alloc ≥ cstring_init.size + 1)
      ∧ (∃ s, cstring_expand cstring_init 97 = .ok s ∧ s.alloc ≥ s.size + 1
          ∧ ¬ ((cstring_reset s).alloc ≥ (cstring_reset s).size + 1)) :=
  ⟨by decide, ⟨⟨some ([some 97, some 0] ++ List.replicate 8 none), 1, 10⟩, by decide, by decide,
    by decide⟩⟩

/-- C16, amended: for a buffer in a state its functions leave it in (`size` within
`size_t`), `alloc ≥ size + 1` holds after every `cstring_expand`, after every
`cstring_expand_arr` that ends (it ends when the block has room for the bytes, the
terminator and one byte more) and after every `cstring_strip` with `pos ≥ 0` and
`len ≥ 0` that ends on a buffer for which it held. The fresh buffer and the buffer
after `cstring_reset` have `alloc = 0` and `size = 0`. -/
theorem C16_room_for_terminator (s : cstring_t) (c : List Nat) (h : s.Holds c)
    (hsz : s.size ≤ SIZE_MAX) :
    (∀ b, ∃ s2, cstring_expand s b = .ok s2 ∧ s2.alloc ≥ s2.size + 1)
      ∧ (∀ x s2, cstring_expand_arr s x = .ok s2 → s2.alloc ≥ s2.size + 1)
      ∧ (∀ x, 0 ∉ x → s.text ≠ none → c.length + x.length + 2 ≤ s.alloc →
          ∃ s2, cstring_expand_arr s x = .ok s2 ∧ s2.Holds (c ++ x) ∧ s2.alloc ≥ s2.size + 1)
      ∧ (∀ (pos len : Nat) s2, s.alloc ≥ s.size + 1 →
          cstring_strip s (pos : Int) (len : Int) = .ok s2 → s2.alloc ≥ s2.size + 1)
      ∧ (cstring_init.alloc = 0 ∧ cstring_init.size = 0)
      ∧ ((cstring_reset s).alloc = 0 ∧ (cstring_reset s).size = 0) := by
  refine ⟨?_, ?_, ?_, ?_, ⟨rfl, rfl⟩, ⟨rfl, rfl⟩⟩
  · intro b
    obtain ⟨s2, e, h2, hn2⟩ := cstring_expand_holds s c b h
    exact ⟨s2, e, Holds_room s2 _ h2 hn2⟩
  · intro x s2 he
    have := cstring_expand_arr_room s c x s2 h he
    omega
  · intro x hx hn hroom
    obtain ⟨s2, e, h2, ha⟩ := cstring_expand_arr_holds s c x h hn hx hroom
    have := cstring_expand_arr_room s c x s2 h e
    exact ⟨s2, e, h2, by omega⟩
  · intro pos len s2 hroom he
    obtain ⟨ha, hs⟩ := cstring_strip_size s s2 pos len hsz he
    omega

theorem C16_room_for_terminator_witness :
    (∀ b, ∃ s2, cstring_expand (⟨some ([some 97, some 0] ++ List.replicate 8 none), 1, 10⟩ : cstring_t) b = .ok s2 ∧ s2.alloc ≥ s2.size + 1)
      ∧ (∀ x s2, cstring_expand_arr (⟨some ([some 97, some 0] ++ List.replicate 8 none), 1, 10⟩ : cstring_t) x = .ok s2 → s2.alloc ≥ s2.size + 1)
      ∧ (∀ x, 0 ∉ x → (⟨some ([some 97, some 0] ++ List.replicate 8 none), 1, 10⟩ : cstring_t).text ≠ none
          → [97].length + x.length + 2 ≤ (⟨some ([some 97, some 0] ++ List.replicate 8 none), 1, 10⟩ : cstring_t).alloc →
          ∃ s2, cstring_expand_arr (⟨some ([some 97, some 0] ++ List.replicate 8 none), 1, 10⟩ : cstring_t) x = .ok s2 ∧ s2.Holds ([97] ++ x)
            ∧ s2.alloc ≥ s2.size + 1)
      ∧ (∀ (pos len : Nat) s2, (⟨some ([some 97, some 0] ++ List.replicate 8 none), 1, 10⟩ : cstring_t).alloc ≥ (⟨some ([some 97, some 0] ++ List.replicate 8 none), 1, 10⟩ : cstring_t).size + 1 →
          cstring_strip (⟨some ([some 97, some 0] ++ List.replicate 8 none), 1, 10⟩ : cstring_t) (pos : Int) (len : Int) = .ok s2 → s2.alloc ≥ s2.size + 1)
      ∧ (cstring_init.alloc = 0 ∧ cstring_init.size = 0)
      ∧ ((cstring_reset (⟨some ([some 97, some 0] ++ List.replicate 8 none), 1, 10⟩ : cstring_t)).alloc = 0 ∧ (cstring_reset (⟨some ([some 97, some 0] ++ List.replicate 8 none), 1, 10⟩ : cstring_t)).size = 0) :=
  C16_room_for_terminator (⟨some ([some 97, some 0] ++ List.replicate 8 none), 1, 10⟩ : cstring_t) [97] (by decide) (by decide)

/-- C17: decoding terminates. The run of `main` is never short of fuel, for any input;
the loop `while (extends > 0)` makes at most `extends` passes, each taking one off
`extends`; the byte loop of a group makes at most one pass for each byte left in the
input and one more that finds the end of the stream: a pass that reads a byte leaves
the input shorter by that byte at least; the loop that skips a field stops behind the
first `'*'` or at the end of the stream; the loop over the bytes of a character makes
at most 8 passes, each adding one to `len`. -/
theorem C17_decoding_terminates :
    (∀ input : List Nat, main input ≠ .error .fuel)
      ∧ (∀ (v : Vars) (e : Int), v.extends_ = some e →
          extends_loop e.toNat v ≠ .error .fuel
            ∧ ∀ w, extends_body v = .ok w → w.extends_ = some (e - 1))
      ∧ (∀ v : Vars, props_loop (v.input.length + 1) v ≠ .error .fuel)
      ∧ (∀ (v : Vars) (fuel : Nat), v.input = [] →
          props_loop (fuel + 1) v = .ok v)
      ∧ (∀ (v : Vars) (b : Nat) (rest : List Nat) (fuel : Nat), v.input = b :: rest →
          props_loop (fuel + 1) v
              = (do let (w, brk) ← props_body { v with input := rest } (b : Int)
                    if brk then pure w else props_loop fuel w)
            ∧ ∀ r, props_body { v with input := rest } (b : Int) = .ok r →
                r.1.input.length < v.input.length)
      ∧ (∀ l : List Nat,
          (∃ pre, 42 ∉ pre ∧ l = pre ++ 42 :: skip_loop l) ∨ (42 ∉ l ∧ skip_loop l = []))
      ∧ (∀ (c : Int) (v : Vars), utf8_loop 9 1 c v ≠ .error .fuel
          ∧ ∀ w, utf8_loop 9 1 c v = .ok w → v.len ≤ w.len ∧ w.len ≤ v.len + 8) := by
  refine ⟨main_ne_fuel, ?_, ?_, ?_, ?_, skip_loop_stops, ?_⟩
  · intro v e he
    refine ⟨extends_loop_spec _ v (fun e2 he2 => ?_), fun w hw => ?_⟩
    · rw [he] at he2
      simp only [Option.some.injEq] at he2
      rw [he2]
    · obtain ⟨e2, h1, h2⟩ := (extends_body_spec v).2 w hw
      rw [he] at h1
      simp only [Option.some.injEq] at h1
      rw [h2, h1]
  · intro v
    exact (props_loop_spec _ v (Nat.lt_succ_self _)).1
  · intro v fuel hv
    obtain ⟨input, out, str, slen, len, props, ext⟩ := v
    simp only at hv
    subst hv
    exact props_loop_eof fuel out str slen len props ext
  · intro v b rest fuel hv
    obtain ⟨input, out, str, slen, len, props, ext⟩ := v
    simp only at hv
    subst hv
    refine ⟨props_loop_byte fuel b rest out str slen len props ext, fun r hr => ?_⟩
    have := (props_body_spec _ _).2 r hr
    simp only [List.length_cons] at this ⊢
    omega
  · intro c v
    refine ⟨(utf8_loop_spec 8 1 c v (by omega)).1, fun w hw => ?_⟩
    have := utf8_loop_len 9 1 c v w (by omega) hw
    omega

/-- C18 fails on the code: on `@0*0*1*0*0*0*1*k1*` followed by the lead byte `C3`,
where the stream ends, the loop `for(i = 1; i <= length_utf8(c); i++)` stores the
value of `fgetc` without a test for `EOF`: `(char)EOF` is `0xFF`, of length 8, so
eight bytes `0xFF`, none of them in the input, are appended and printed. -/
theorem C18_bytes_appended_at_end_of_stream :
    main (bytes "@0*0*1*0*0*0*1*k1*" ++ [0xC3])
      = .ok ⟨0, [.newline, .field 1 (bytes "k"), .field 0 (0xC3 :: List.replicate 8 0xFF)]⟩
    ∧ stdout [.newline, .field 1 (bytes "k"), .field 0 (0xC3 :: List.replicate 8 0xFF)]
      = bytes "\nk: " ++ (0xC3 :: List.replicate 8 0xFF) ++ [10]
    ∧ 0xFF ∉ bytes "@0*0*1*0*0*0*1*k1*" ++ [0xC3] :=
  ⟨by decide, by decide, by decide⟩

/-- C19: for every byte `ch`, `is_utf8 ch` holds exactly when bit 7 of `ch` is set,
and `length_utf8 ch`, with `ch <<= 1` keeping the low eight bits, ends (its loop is
not short of fuel) and returns the number of 1-bits from the most significant bit
down to the first 0-bit: 0 for `0x00 .. 0x7F`, 1 for `10xxxxxx`, 2 for `110xxxxx`,
3 for `1110xxxx`, 4 for `11110xxx`, 8 for `0xFF`, and never more than 8. -/
theorem C19_is_utf8_length_utf8 (ch : Nat) (h : ch < 256) :
    (is_utf8 ch = true ↔ ch.testBit 7 = true)
      ∧ (is_utf8 ch = true ↔ 128 ≤ ch)
      ∧ length_utf8 ch = .ok (leadingOnes ch : Int)
      ∧ leadingOnes ch ≤ 8
      ∧ (ch < 128 → leadingOnes ch = 0)
      ∧ (128 ≤ ch → ch < 192 → leadingOnes ch = 1)
      ∧ (192 ≤ ch → ch < 224 → leadingOnes ch = 2)
      ∧ (224 ≤ ch → ch < 240 → leadingOnes ch = 3)
      ∧ (240 ≤ ch → ch < 248 → leadingOnes ch = 4)
      ∧ (ch = 255 → leadingOnes ch = 8) :=
  ⟨(is_utf8_table ch h).1, (is_utf8_table ch h).2, (length_utf8_table ch h).1,
    (length_utf8_table ch h).2, (leadingOnes_table ch h).1, (leadingOnes_table ch h).2.1,
    (leadingOnes_table ch h).2.2, (leadingOnes_table_high ch h).1,
    (leadingOnes_table_high ch h).2.1, (leadingOnes_table_high ch h).2.2⟩

theorem C19_is_utf8_length_utf8_witness :
    (is_utf8 0xE2 = true ↔ (0xE2 : Nat).testBit 7 = true)
      ∧ (is_utf8 0xE2 = true ↔ 128 ≤ 0xE2)
      ∧ length_utf8 0xE2 = .ok (leadingOnes 0xE2 : Int)
      ∧ leadingOnes 0xE2 ≤ 8
      ∧ (0xE2 < 128 → leadingOnes 0xE2 = 0)
      ∧ (128 ≤ 0xE2 → 0xE2 < 192 → leadingOnes 0xE2 = 1)
      ∧ (192 ≤ 0xE2 → 0xE2 < 224 → leadingOnes 0xE2 = 2)
      ∧ (224 ≤ 0xE2 → 0xE2 < 240 → leadingOnes 0xE2 = 3)
      ∧ (240 ≤ 0xE2 → 0xE2 < 248 → leadingOnes 0xE2 = 4)
      ∧ (0xE2 = 255 → leadingOnes 0xE2 = 8) :=
  C19_is_utf8_length_utf8 0xE2 (by decide)

end Smp
